import Mathlib

/-!
Shallow embedding of the relational engine in `transaction_database.py`
(classes `DataType`, `Column`, `Table`, `Database`), together with proofs
about its specified properties.

Modelling conventions, chosen to match Python semantics:
* Row values are a closed tagged union (`Value`) over the four column types
  plus null.  Python `float` is modelled by a rational number (NaN/inf are
  out of scope for this code base, which only stores and compares values).
* Python `==`/hash-based dictionary and set membership on these values is
  value equality on a canonical key: `True == 1 == 1.0` all hold in Python
  (`bool` is a subclass of `int`, and numeric types compare by value), while
  values of non-numeric different types are never equal.  `pyEq` implements
  exactly this.
* A Python `dict` is an insertion-ordered key-value sequence with unique
  keys; it is modelled by an association list, with update-in-place
  semantics for existing keys (`Row.set`, `DictV.set`) and append for new
  keys, which is exactly the observable behaviour of `dict.__setitem__`.
* A Python `set` of values is modelled as the list of its elements in
  insertion order, with membership up to `pyEq` (`USet.mem`).
-/

set_option maxRecDepth 4000

namespace RelDB

/-- Canonical comparison key of a Python value: numeric values (int, bool,
float) compare by numeric value, strings by string value, `None` only to
itself. -/
abbrev PyKey := ℚ ⊕ String ⊕ Unit

/-- A value stored in a row: `None` or one of the four supported types.
`vFloat` carries a rational, see the modelling notes above. -/
inductive Value where
  | vNone : Value
  | vInt (n : ℤ) : Value
  | vBool (b : Bool) : Value
  | vFloat (q : ℚ) : Value
  | vStr (s : String) : Value
  deriving DecidableEq, Repr

/-- The canonical key of a value under Python `==` / hashing:
`True == 1 == 1.0`, strings compare as strings, `None` only to itself. -/
def Value.key : Value → PyKey
  | .vNone => .inr (.inr ())
  | .vInt n => .inl (n : ℚ)
  | .vBool b => .inl (if b then 1 else 0)
  | .vFloat q => .inl q
  | .vStr s => .inr (.inl s)

/-- Python `==` on stored values (also the equality used by `dict` and
`set` membership, since these types hash consistently with `==`). -/
def pyEq (a b : Value) : Bool :=
  decide (a.key = b.key)

/-- A row: a Python `dict` mapping column-name strings to values, in key
insertion order. -/
abbrev Row := List (String × Value)

namespace Row

/-- `row.get(k)` as an option (`row[k]` raises `KeyError` when absent; all
uses in the engine are on keys that are present, see `getD`). -/
def get? (r : Row) (k : String) : Option Value :=
  (r.find? (fun p => p.1 = k)).map (·.2)

/-- Total version of `row[k]`, defaulting to `None`; used to model the
lookups the engine performs on keys it has materialized. -/
def getD (r : Row) (k : String) : Value :=
  (r.get? k).getD .vNone

/-- `k in row`. -/
def hasKey (r : Row) (k : String) : Bool :=
  (r.find? (fun p => p.1 = k)).isSome

/-- `row[k] = v`: update in place if the key exists, else append. -/
def set : Row → String → Value → Row
  | [], k, v => [(k, v)]
  | (k', v') :: rest, k, v =>
    if k' = k then (k, v) :: rest else (k', v') :: set rest k v

/-- `row.update(other)`: merge the entries of `u` into `r` in order. -/
def update (r u : Row) : Row :=
  u.foldl (fun acc p => acc.set p.1 p.2) r

end Row

/-- The primary-key index `primary_key_index`: a Python dict mapping
primary-key values to row positions (`value -> row_index`). -/
abbrev DictV := List (Value × Nat)

namespace DictV

/-- `d.get(v)` / `v in d`: dict lookup, equality up to `pyEq` (these value
types hash consistently with `==`). -/
def lookup (d : DictV) (v : Value) : Option Nat :=
  (d.find? (fun p => pyEq p.1 v)).map (·.2)

/-- `v in d`. -/
def contains (d : DictV) (v : Value) : Bool :=
  (lookup d v).isSome

/-- `d[v] = n`: overwrite the value of the matching entry in place (Python
keeps the originally stored key object), else append a new entry. -/
def set : DictV → Value → Nat → DictV
  | [], v, n => [(v, n)]
  | (w, m) :: rest, v, n =>
    if pyEq w v then (w, n) :: rest else (w, m) :: set rest v n

/-- `del d[v]`: remove the matching entry.  In Python this raises
`KeyError` when the key is absent; the engine only deletes keys that are
present in every state reached in the theorems below, where this total
function agrees with it. -/
def del : DictV → Value → DictV
  | [], _ => []
  | (w, m) :: rest, v => if pyEq w v then rest else (w, m) :: del rest v

/-- Keys of a well-formed Python dict are pairwise distinct under `==`. -/
def keysDistinct : DictV → Bool
  | [] => true
  | (w, _) :: rest => rest.all (fun p => !pyEq w p.1) && keysDistinct rest

end DictV

/-- One uniqueness index: a Python `set` of currently used values, listed
in insertion order. -/
abbrev USet := List Value

namespace USet

/-- `v in s`: set membership, up to `pyEq`. -/
def mem (s : USet) (v : Value) : Bool :=
  s.any (fun w => pyEq w v)

/-- `s.add(v)`: a no-op when an equal element is present. -/
def add (s : USet) (v : Value) : USet :=
  if s.mem v then s else s ++ [v]

/-- `s.discard(v)`: remove the equal element if present. -/
def discard : USet → Value → USet
  | [], _ => []
  | w :: rest, v => if pyEq w v then rest else w :: discard rest v

/-- Elements of a well-formed Python set are pairwise distinct under `==`. -/
def distinct : USet → Bool
  | [] => true
  | w :: rest => rest.all (fun u => !pyEq w u) && distinct rest

end USet

/-- `unique_indexes`: a `defaultdict(set)` keyed by column name. -/
abbrev UIdx := List (String × USet)

namespace UIdx

/-- `u[c]` as read by the engine: the stored set, or the empty set that
`defaultdict` would materialize. -/
def get (u : UIdx) (c : String) : USet :=
  ((u.find? (fun p => p.1 = c)).map (·.2)).getD []

/-- Store a set under column `c` (replace in place or append), the effect
of mutating `u[c]` through `defaultdict.__getitem__`. -/
def setEntry : UIdx → String → USet → UIdx
  | [], c, s => [(c, s)]
  | (c', s') :: rest, c, s =>
    if c' = c then (c, s) :: rest else (c', s') :: setEntry rest c s

/-- `u[c].add v`. -/
def add (u : UIdx) (c : String) (v : Value) : UIdx :=
  u.setEntry c ((u.get c).add v)

/-- `u[c].discard v`. -/
def discard (u : UIdx) (c : String) (v : Value) : UIdx :=
  u.setEntry c ((u.get c).discard v)

end UIdx

/-! ## The engine data model (`DataType`, `Column`, `Table`) -/
/-- Supported data types. -/
inductive DataType where
  | INT
  | TEXT
  | FLOAT
  | BOOL
  deriving DecidableEq, Repr

/-- Represents a table column. -/
structure Column where
  name : String
  data_type : DataType
  is_primary_key : Bool
  is_unique : Bool
  not_null : Bool
  deriving DecidableEq, Repr

/-- Represents a database table.  The fields `column_names`,
`primary_key` and `unique_columns` are computed once from `columns` in
`__init__` and never mutated, so they are modelled as derived functions
below rather than stored fields. -/
structure Table where
  name : String
  columns : List Column
  rows : List Row
  primary_key_index : DictV
  unique_indexes : UIdx
  deriving DecidableEq, Repr

def Table.column_names (t : Table) : List String :=
  t.columns.map (·.name)

/-- The first column flagged primary-key, if any. -/
def Table.primary_key (t : Table) : Option String :=
  (t.columns.find? (·.is_primary_key)).map (·.name)

def Table.unique_columns (t : Table) : List String :=
  (t.columns.filter (fun c => c.is_unique || c.is_primary_key)).map (·.name)

/-- `Table.__init__`: empty row storage and indexes. -/
def mkTable (name : String) (columns : List Column) : Table :=
  ⟨name, columns, [], [], []⟩

/-! ## `validate_row` and `insert` -/
/-- First loop of `validate_row`: materialize absent declared columns as
null, failing when an absent column is flagged not-null. -/
def materialize : List Column → Row → Except String Row
  | [], row => .ok row
  | col :: rest, row =>
    if row.hasKey col.name then materialize rest row
    else if col.not_null then .error ("Column " ++ col.name ++ " cannot be NULL")
    else materialize rest (row.set col.name .vNone)

/-- Python `isinstance(v, int)`: `bool` is a subclass of `int`. -/
def isinstInt : Value → Bool
  | .vInt _ => true
  | .vBool _ => true
  | _ => false

/-- Python `isinstance(v, str)`. -/
def isinstStr : Value → Bool
  | .vStr _ => true
  | _ => false

/-- Python `isinstance(v, (int, float))`, again with `bool <: int`. -/
def isinstNum : Value → Bool
  | .vInt _ => true
  | .vBool _ => true
  | .vFloat _ => true
  | _ => false

/-- Python `isinstance(v, bool)`. -/
def isinstBool : Value → Bool
  | .vBool _ => true
  | _ => false

/-- The per-column type test shared by `validate_row` and `update`
(`true` = mismatch; the four branches of the if/elif chain are mutually
exclusive, so the chain is this disjunction). -/
def typeErr (col : Column) (v : Value) : Bool :=
  (col.data_type = DataType.INT && !isinstInt v)
    || (col.data_type = DataType.TEXT && !isinstStr v)
    || (col.data_type = DataType.FLOAT && !isinstNum v)
    || (col.data_type = DataType.BOOL && !isinstBool v)

/-- Second loop of `validate_row`: type checks on all present, non-null
values. -/
def checkTypes : List Column → Row → Except String Unit
  | [], _ => .ok ()
  | col :: rest, row =>
    if row.getD col.name ≠ Value.vNone ∧ typeErr col (row.getD col.name) = true then
      .error ("Column " ++ col.name ++ " type mismatch")
    else checkTypes rest row

/-- Primary-key uniqueness check of `validate_row`. -/
def checkPk (t : Table) (row : Row) : Except String Unit :=
  match t.primary_key with
  | none => .ok ()
  | some pk =>
    if t.primary_key_index.contains (row.getD pk) then
      .error ("Primary key violation: key already exists")
    else .ok ()

/-- Unique-constraint check of `validate_row` (the primary key itself is
skipped, it was already checked). -/
def checkUnique (t : Table) : List String → Row → Except String Unit
  | [], _ => .ok ()
  | c :: rest, row =>
    if t.primary_key ≠ some c then
      if row.getD c ≠ Value.vNone ∧ (t.unique_indexes.get c).mem (row.getD c) = true then
        .error ("Unique constraint violation on column " ++ c)
      else checkUnique t rest row
    else checkUnique t rest row

/-- `Table.validate_row`: validate a row before insertion.  The Python
method mutates its argument in place (materializing missing columns) and
returns `None`; the materialized row is returned here instead so that
`insert` can store it. -/
def Table.validate_row (t : Table) (row : Row) : Except String Row := do
  let row ← materialize t.columns row
  checkTypes t.columns row
  checkPk t row
  checkUnique t t.unique_columns row
  return row

/-- The index-update loop of `insert`: add each non-null unique value
(other than the primary key) to its uniqueness index. -/
def addUniques (pkOpt : Option String) (ucols : List String) (row : Row) (u : UIdx) : UIdx :=
  ucols.foldl
    (fun acc c =>
      if pkOpt ≠ some c then
        if row.getD c ≠ Value.vNone then acc.add c (row.getD c) else acc
      else acc)
    u

/-- `Table.insert`: validate, then append the row and update the indexes.
The table is returned alongside the outcome because a raised validation
error leaves the object in its pre-call state. -/
def Table.insert (t : Table) (row : Row) : Table × Except String Unit :=
  match t.validate_row row with
  | .error e => (t, .error e)
  | .ok row =>
    let row_index := t.rows.length
    let rows := t.rows ++ [row]
    let pkidx :=
      match t.primary_key with
      | some pk => t.primary_key_index.set (row.getD pk) row_index
      | none => t.primary_key_index
    let uidx := addUniques t.primary_key t.unique_columns row t.unique_indexes
    ({ t with rows := rows, primary_key_index := pkidx, unique_indexes := uidx }, .ok ())

/-! ## Reads: `select_all`, `select_where`, `get_by_primary_key`,
`select_columns` -/
/-- `Table.select_all`: `self.rows.copy()` — a fresh list containing the
same row objects (a shallow copy; the aliasing consequences are modelled
separately below). -/
def Table.select_all (t : Table) : List Row :=
  t.rows

/-- `Table.select_where`. -/
def Table.select_where (t : Table) (condition : Row → Bool) : List Row :=
  t.rows.filter condition

/-- `Table.get_by_primary_key`: index lookup; raises when the table has no
primary key; `.ok none` when the key is absent.  A stale index entry
pointing past the end of the row list would raise `IndexError` in Python,
modelled by the final error case. -/
def Table.get_by_primary_key (t : Table) (pk_value : Value) : Except String (Option Row) :=
  match t.primary_key with
  | none => .error "Table has no primary key"
  | some _ =>
    match t.primary_key_index.lookup pk_value with
    | some row_index =>
      match t.rows[row_index]? with
      | some r => .ok (some r)
      | none => .error "IndexError"
    | none => .ok none

/-- The dict comprehension used by `select_columns` to build one projected
row. -/
def projectRow (columns : List String) (row : Row) : Row :=
  columns.foldl (fun acc c => acc.set c (row.getD c)) []

/-- `Table.select_columns`: returns the input unprojected for an empty
column list or a wildcard, validates the names, then projects. -/
def Table.select_columns (t : Table) (rows : List Row) (columns : List String) :
    Except String (List Row) :=
  if columns = [] ∨ columns.contains "*" then .ok rows
  else
    match columns.find? (fun c => !t.column_names.contains c) with
    | some c => .error ("Column " ++ c ++ " does not exist in table " ++ t.name)
    | none => .ok (rows.map (projectRow columns))

/-! ## `update` -/
/-- The type/not-null checks in the body of `update` (only assigned
columns are checked; a null value on a not-null column is rejected). -/
def checkTypesUpdate : List Column → Row → Row → Except String Unit
  | [], _, _ => .ok ()
  | col :: rest, updates, new_row =>
    if updates.hasKey col.name then
      if new_row.getD col.name ≠ Value.vNone then
        if typeErr col (new_row.getD col.name) then
          .error ("Column " ++ col.name ++ " type mismatch")
        else checkTypesUpdate rest updates new_row
      else if col.not_null then .error ("Column " ++ col.name ++ " cannot be NULL")
      else checkTypesUpdate rest updates new_row
    else checkTypesUpdate rest updates new_row

/-- The primary-key section of the update loop body: reject a key change
colliding with a different row, otherwise move the index entry. -/
def updatePkStep (t : Table) (updates old_row new_row : Row) (row_index : Nat) :
    Except String DictV :=
  match t.primary_key with
  | some pk =>
    if updates.hasKey pk then
      if ¬ pyEq (new_row.getD pk) (old_row.getD pk) = true
          ∧ t.primary_key_index.contains (new_row.getD pk) = true then
        .error "Primary key violation: key already exists"
      else .ok ((t.primary_key_index.del (old_row.getD pk)).set (new_row.getD pk) row_index)
    else .ok t.primary_key_index
  | none => .ok t.primary_key_index

/-- The per-unique-column loop of the update body.  It checks and mutates
one column at a time, so a failure on a later column leaves the earlier
columns' index mutations behind — the partially mutated index is returned
with the error, as the raised exception leaves it behind in Python. -/
def updateUniqueLoop (pkOpt : Option String) (updates old_row new_row : Row) :
    List String → UIdx → UIdx × Except String Unit
  | [], u => (u, .ok ())
  | c :: rest, u =>
    if updates.hasKey c = true ∧ pkOpt ≠ some c then
      if ¬ pyEq (old_row.getD c) (new_row.getD c) = true then
        if new_row.getD c ≠ Value.vNone ∧ (u.get c).mem (new_row.getD c) = true then
          (u, .error ("Unique constraint violation on column " ++ c))
        else
          let u := if old_row.getD c ≠ Value.vNone then u.discard c (old_row.getD c) else u
          let u := if new_row.getD c ≠ Value.vNone then u.add c (new_row.getD c) else u
          updateUniqueLoop pkOpt updates old_row new_row rest u
      else updateUniqueLoop pkOpt updates old_row new_row rest u
    else updateUniqueLoop pkOpt updates old_row new_row rest u

/-- One iteration of the update loop: build the merged candidate row for
position `row_index` (whose pre-call value was `old_row`), run the checks
and mutations in source order, and report the state at the point of any
raise. -/
def updateRowStep (t : Table) (updates : Row) (row_index : Nat) (old_row : Row) :
    Table × Except String Unit :=
  let new_row := old_row.update updates
  match checkTypesUpdate t.columns updates new_row with
  | .error e => (t, .error e)
  | .ok _ =>
    match updatePkStep t updates old_row new_row row_index with
    | .error e => (t, .error e)
    | .ok pkidx =>
      match updateUniqueLoop t.primary_key updates old_row new_row t.unique_columns
          t.unique_indexes with
      | (uidx, .error e) =>
        ({ t with primary_key_index := pkidx, unique_indexes := uidx }, .error e)
      | (uidx, .ok _) =>
        ({ t with
            primary_key_index := pkidx
            unique_indexes := uidx
            rows := t.rows.set row_index new_row }, .ok ())

/-- The rows matching the condition, with their positions — collected
before any mutation, with each row copied. -/
def matchedRows (t : Table) (condition : Row → Bool) : List (Nat × Row) :=
  t.rows.enum.filter (fun p => condition p.2)

/-- The update loop over the collected matches; a raise aborts the
remaining iterations and discards the count. -/
def updateLoop (updates : Row) : List (Nat × Row) → Table → Nat → Table × Except String Nat
  | [], t, count => (t, .ok count)
  | (i, old_row) :: rest, t, count =>
    match updateRowStep t updates i old_row with
    | (t', .error e) => (t', .error e)
    | (t', .ok _) => updateLoop updates rest t' (count + 1)

/-- `Table.update`: update rows matching the condition, returning the
number of rows updated (or propagating the first raised error). -/
def Table.update (t : Table) (updates : Row) (condition : Row → Bool) :
    Table × Except String Nat :=
  updateLoop updates (matchedRows t condition) t 0

/-! ## `delete` and `delete_by_primary_key` -/
/-- The unique-index cleanup loop shared by `delete` and
`delete_by_primary_key`: discard each non-null unique value of the
removed row. -/
def discardUniques (pkOpt : Option String) (ucols : List String) (row : Row) (u : UIdx) : UIdx :=
  ucols.foldl
    (fun acc c =>
      if pkOpt ≠ some c then
        if row.getD c ≠ Value.vNone then acc.discard c (row.getD c) else acc
      else acc)
    u

/-- The primary-key index rebuild after deletions (`clear()` followed by
re-insertion of every remaining row's key). -/
def rebuildPkIndex (pk : String) (rows : List Row) : DictV :=
  rows.enum.foldl (fun d p => d.set (p.2.getD pk) p.1) []

/-- The deletion loop of `delete`, processing matches in reverse order so
that positional indices remain valid: drop the index entries of each
removed row, then remove the row. -/
def deleteLoop (pkOpt : Option String) (ucols : List String) :
    List (Nat × Row) → List Row → DictV → UIdx → List Row × DictV × UIdx
  | [], rows, d, u => (rows, d, u)
  | (i, row) :: rest, rows, d, u =>
    let d :=
      match pkOpt with
      | some pk => d.del (row.getD pk)
      | none => d
    let u := discardUniques pkOpt ucols row u
    deleteLoop pkOpt ucols rest (rows.eraseIdx i) d u

/-- `Table.delete`: delete rows matching the condition, rebuild the
primary-key index (row positions shift), and return the count removed. -/
def Table.delete (t : Table) (condition : Row → Bool) : Table × Nat :=
  let rows_to_delete := t.rows.enum.filter (fun p => condition p.2)
  let res := deleteLoop t.primary_key t.unique_columns rows_to_delete.reverse
    t.rows t.primary_key_index t.unique_indexes
  let d :=
    match t.primary_key with
    | some pk => rebuildPkIndex pk res.1
    | none => res.2.1
  ({ t with rows := res.1, primary_key_index := d, unique_indexes := res.2.2 },
    rows_to_delete.length)

/-- `Table.delete_by_primary_key`: index lookup, then removal and index
rebuild as in `delete`.  (The rebuild immediately overwrites the single
`del` the source performs on the primary-key index, so only the rebuild
is visible.) -/
def Table.delete_by_primary_key (t : Table) (pk_value : Value) : Table × Except String Bool :=
  match t.primary_key with
  | none => (t, .error "Table has no primary key")
  | some pk =>
    match t.primary_key_index.lookup pk_value with
    | none => (t, .ok false)
    | some row_index =>
      match t.rows[row_index]? with
      | none => (t, .error "IndexError")
      | some row =>
        let u := discardUniques t.primary_key t.unique_columns row t.unique_indexes
        let rows := t.rows.eraseIdx row_index
        let d := rebuildPkIndex pk rows
        ({ t with rows := rows, primary_key_index := d, unique_indexes := u }, .ok true)

/-! ## `Database` and the two joins -/
/-- Main database class: a dict of tables by name. -/
structure Database where
  name : String
  tables : List (String × Table)
  deriving DecidableEq, Repr

def mkDatabase (name : String) : Database :=
  ⟨name, []⟩

/-- `Database.create_table`. -/
def Database.create_table (db : Database) (t : Table) : Database × Except String Unit :=
  if (db.tables.find? (fun p => p.1 = t.name)).isSome then
    (db, .error ("Table " ++ t.name ++ " already exists"))
  else ({ db with tables := db.tables ++ [(t.name, t)] }, .ok ())

/-- `Database.get_table`. -/
def Database.get_table (db : Database) (name : String) : Except String Table :=
  match (db.tables.find? (fun p => p.1 = name)).map (·.2) with
  | some t => .ok t
  | none => .error ("Table " ++ name ++ " does not exist")

/-- The joined-row construction shared by both join algorithms: a fresh
dict receiving every left column under `"<left>.<col>"` and then every
right column under `"<right>.<col>"` (dict-write semantics, so a repeated
qualified name overwrites). -/
def mkJoined (lname : String) (lcols : List String) (rname : String) (rcols : List String)
    (lrow rrow : Row) : Row :=
  let r : Row := lcols.foldl (fun acc c => Row.set acc (lname ++ "." ++ c) (lrow.getD c)) []
  rcols.foldl (fun acc c => Row.set acc (rname ++ "." ++ c) (rrow.getD c)) r

/-- The nested-loop scan of `inner_join`: for every left row, every right
row whose join value compares equal contributes one joined row. -/
def joinResult (lname : String) (lt : Table) (rname : String) (rt : Table)
    (lcol rcol : String) : List Row :=
  lt.rows.flatMap (fun lrow =>
    (rt.rows.filter (fun rrow => pyEq (lrow.getD lcol) (rrow.getD rcol))).map
      (fun rrow => mkJoined lname lt.column_names rname rt.column_names lrow rrow))

/-- One output row of the column filter at the end of both joins: each
selected name resolves either directly or via the first key with a
matching `.name` suffix, else the join fails. -/
def projectJoinRowLoop (row : Row) : List String → Row → Except String Row
  | [], acc => .ok acc
  | c :: rest, acc =>
    if row.hasKey c then projectJoinRowLoop row rest (acc.set c (row.getD c))
    else
      match row.find? (fun p => p.1.endsWith ("." ++ c)) with
      | some p => projectJoinRowLoop row rest (acc.set c p.2)
      | none => .error ("Column " ++ c ++ " not found in join result")

/-- The column filter applied to every joined row. -/
def projectJoinRows (sel : List String) : List Row → Except String (List Row)
  | [] => .ok []
  | row :: rest => do
    let fr ← projectJoinRowLoop row sel []
    let frs ← projectJoinRows sel rest
    return fr :: frs

/-- `Database.inner_join`: nested-loop inner join with optional column
selection.  `select_columns = None` and `= []` are both falsy in
`if select_columns:`, so both are modelled by the empty list. -/
def Database.inner_join (db : Database) (lname rname lcol rcol : String)
    (sel : List String) : Except String (List Row) := do
  let lt ← db.get_table lname
  let rt ← db.get_table rname
  if lcol ∉ lt.column_names then
    .error ("Column " ++ lcol ++ " does not exist in table " ++ lname)
  else if rcol ∉ rt.column_names then
    .error ("Column " ++ rcol ++ " does not exist in table " ++ rname)
  else
    let result := joinResult lname lt rname rt lcol rcol
    if sel = [] then .ok result else projectJoinRows sel result

/-- The indexed scan of `inner_join_optimized`: one primary-key lookup per
left row; `if right_row:` keeps a match only when the returned object is
truthy (a non-empty dict). -/
def optJoinLoop (lname : String) (lcols : List String) (rname : String) (rt : Table)
    (lcol : String) : List Row → Except String (List Row)
  | [] => .ok []
  | lrow :: rest =>
    match rt.get_by_primary_key (lrow.getD lcol) with
    | .error e => .error e
    | .ok r? => do
      let tail ← optJoinLoop lname lcols rname rt lcol rest
      match r? with
      | some rrow =>
        if rrow ≠ [] then .ok (mkJoined lname lcols rname rt.column_names lrow rrow :: tail)
        else .ok tail
      | none => .ok tail

/-- `Database.inner_join_optimized`: identical validation; uses the
primary-key index when the right join column is the right table's primary
key, otherwise falls back to `inner_join`. -/
def Database.inner_join_optimized (db : Database) (lname rname lcol rcol : String)
    (sel : List String) : Except String (List Row) := do
  let lt ← db.get_table lname
  let rt ← db.get_table rname
  if lcol ∉ lt.column_names then
    .error ("Column " ++ lcol ++ " does not exist in table " ++ lname)
  else if rcol ∉ rt.column_names then
    .error ("Column " ++ rcol ++ " does not exist in table " ++ rname)
  else if rt.primary_key = some rcol then do
    let result ← optJoinLoop lname lt.column_names rname rt lcol lt.rows
    if sel = [] then .ok result else projectJoinRows sel result
  else db.inner_join lname rname lcol rcol sel

/-! ## Reference-level model of `select_all`'s shallow copy

`select_all` returns `self.rows.copy()`: a *new list object* whose
elements are the *same row dictionaries*.  The value-level model above
cannot express what happens when a caller mutates a returned row, so the
sharing is modelled here explicitly: row dictionaries live in a heap of
objects addressed by location, a table holds a list of locations, and
`select_all` copies the list of locations (`List` values are immutable,
so `copy()` is the identity on the location list — a fresh list with the
same elements). -/
/-- A heap of row objects. -/
abbrev Heap := List Row

/-- The row-storage part of a `Table`, at reference level: the list of
locations of its row objects. -/
structure TableRef where
  row_locs : List Nat
  deriving DecidableEq, Repr

/-- `select_all` at reference level: `self.rows.copy()` — a fresh list
containing the same locations. -/
def TableRef.select_all_ref (t : TableRef) : List Nat :=
  t.row_locs

/-- Reading a row object. -/
def Heap.getRow (h : Heap) (loc : Nat) : Row :=
  (h[loc]?).getD []

/-- Mutating a row object in place (e.g. `returned_row["k"] = v`). -/
def Heap.setRow (h : Heap) (loc : Nat) (r : Row) : Heap :=
  h.set loc r

/-- The row contents a table observes through its stored locations. -/
def TableRef.storedRows (t : TableRef) (h : Heap) : List Row :=
  t.row_locs.map h.getRow

/-! ## The index-consistency invariant (spec §3: "the primary-key index
and uniqueness indexes are always exactly consistent with the current row
sequence") -/
/-- Every stored row has an entry for every declared column — established
by `validate_row`'s materialization for every row the engine stores. -/
def RowsWF (t : Table) : Prop :=
  ∀ r ∈ t.rows, ∀ c ∈ t.column_names, r.hasKey c = true

/-- Exact consistency of the primary-key index with the row sequence, for
primary-key column `pk`: every row's key maps to its position, every
entry points at a row carrying its key, and entries have distinct keys. -/
structure PkInvAt (pk : String) (rows : List Row) (d : DictV) : Prop where
  fwd : ∀ i (h : i < rows.length),
    d.lookup (Row.getD (rows.get ⟨i, h⟩) pk) = some i
  bwd : ∀ p ∈ d,
    ∃ h : p.2 < rows.length, pyEq (Row.getD (rows.get ⟨p.2, h⟩) pk) p.1 = true
  dis : DictV.keysDistinct d = true

/-- Primary-key index consistency (trivially, an empty index when the
table has no primary key — the engine never touches it then). -/
def PkInv (t : Table) : Prop :=
  match t.primary_key with
  | some pk => PkInvAt pk t.rows t.primary_key_index
  | none => t.primary_key_index = []

/-- Exact consistency of one uniqueness index with the row sequence:
every non-null stored value is in the set, every set element is the value
of some row and non-null, set elements are distinct, and non-null values
are pairwise distinct across rows. -/
structure UniqInvCol (c : String) (rows : List Row) (s : USet) : Prop where
  fwd : ∀ r ∈ rows, Row.getD r c ≠ .vNone → s.mem (Row.getD r c) = true
  bwd : ∀ w ∈ s, w ≠ .vNone ∧ ∃ r ∈ rows, pyEq (Row.getD r c) w = true
  sdis : USet.distinct s = true
  rdis : List.Pairwise
    (fun r1 r2 => Row.getD r1 c = .vNone ∨ Row.getD r2 c = .vNone ∨
      pyEq (Row.getD r1 c) (Row.getD r2 c) = false) rows

/-- The full table invariant.  `column_names.Nodup` reflects spec §3
("name unique within its table", enforced by the table's creator). -/
structure Inv (t : Table) : Prop where
  wf : RowsWF t
  pki : PkInv t
  uniq : ∀ c ∈ t.unique_columns, t.primary_key ≠ some c →
    UniqInvCol c t.rows (t.unique_indexes.get c)
  nodup : t.column_names.Nodup

/-! ### An executable check implying the invariant (used to discharge
hypotheses on concrete tables) -/
/-- Executable pairwise distinctness of non-null values of column `c`. -/
def colPairwise (c : String) : List Row → Bool
  | [] => true
  | r :: rest =>
    rest.all (fun r2 => decide (Row.getD r c = Value.vNone)
      || decide (Row.getD r2 c = Value.vNone)
      || !pyEq (Row.getD r c) (Row.getD r2 c))
    && colPairwise c rest

/-- Executable version of `PkInv`. -/
def checkPkInv (t : Table) : Bool :=
  match t.primary_key with
  | some pk =>
    (List.range t.rows.length).all (fun i =>
      t.primary_key_index.lookup (Row.getD (t.rows.getD i []) pk) == some i)
    && t.primary_key_index.all (fun p =>
        decide (p.2 < t.rows.length) && pyEq (Row.getD (t.rows.getD p.2 []) pk) p.1)
    && DictV.keysDistinct t.primary_key_index
  | none => t.primary_key_index.isEmpty

/-- Executable version of the uniqueness-index consistency. -/
def checkUniqInv (t : Table) : Bool :=
  t.unique_columns.all (fun c =>
    decide (t.primary_key = some c)
    || (t.rows.all (fun r => decide (Row.getD r c = Value.vNone)
          || (t.unique_indexes.get c).mem (Row.getD r c))
        && (t.unique_indexes.get c).all (fun w =>
            !decide (w = Value.vNone) && t.rows.any (fun r => pyEq (Row.getD r c) w))
        && USet.distinct (t.unique_indexes.get c)
        && colPairwise c t.rows))

/-- Executable version of `RowsWF`. -/
def checkRowsWF (t : Table) : Bool :=
  t.rows.all (fun r => t.column_names.all (fun c => r.hasKey c))

/-- Executable version of `Inv`. -/
def checkInv (t : Table) : Bool :=
  checkRowsWF t && checkPkInv t && checkUniqInv t && decide t.column_names.Nodup

/-- Each registered table of a database satisfies the table invariant —
the well-formedness of a reachable database state. -/
def DbInv (db : Database) : Prop :=
  ∀ p ∈ db.tables, Inv p.2

/-- Row list obtained by committing the merged candidate row of every
processed match in order. -/
def applyMatched (updates : Row) (ps : List (Nat × Row)) (rows : List Row) : List Row :=
  ps.foldl (fun rs p => rs.set p.1 (Row.update p.2 updates)) rows

/-- One mutating call on a table. -/
inductive Op where
  | ins (row : Row)
  | upd (updates : Row) (condition : Row → Bool)
  | del (condition : Row → Bool)
  | delPk (v : Value)

/-- Apply one call, keeping the table state that a raised error leaves
behind. -/
def applyOp (t : Table) : Op → Table
  | .ins row => (t.insert row).1
  | .upd updates condition => (t.update updates condition).1
  | .del condition => (t.delete condition).1
  | .delPk v => (t.delete_by_primary_key v).1

/-- Apply a sequence of calls left to right. -/
def applyOps (t : Table) (ops : List Op) : Table :=
  ops.foldl applyOp t

/-- `true` when the call is not an `update` that raises (an assignment
mapping, being a dict, also has no duplicate keys). -/
def opOK (t : Table) : Op → Bool
  | .upd updates condition =>
    decide (updates.map Prod.fst).Nodup &&
      (match (t.update updates condition).2 with
       | .ok _ => true
       | .error _ => false)
  | _ => true

/-- `true` when no `update` call of the sequence raises at its point of
execution. -/
def opsOK : Table → List Op → Bool
  | _, [] => true
  | t, op :: rest => opOK t op && opsOK (applyOp t op) rest

/-- The `users` schema: `id INTEGER PRIMARY KEY`, `email TEXT UNIQUE`. -/
def usersCols : List Column :=
  [⟨"id", DataType.INT, true, false, false⟩,
   ⟨"email", DataType.TEXT, false, true, false⟩]

def usersT : Table := mkTable "users" usersCols

def rowU1 : Row := [("id", .vInt 1), ("email", .vStr "a")]

def rowU2 : Row := [("id", .vInt 2), ("email", .vStr "b")]

/-- `users` after inserting two rows. -/
def usersT2 : Table := ((usersT.insert rowU1).1.insert rowU2).1

/-- Assignments giving row 1 the fresh key `3` but the taken email `b`. -/
def updBad : Row := [("id", .vInt 3), ("email", .vStr "b")]

def condId1 : Row → Bool := fun r => pyEq (Row.getD r "id") (.vInt 1)

/-- The state left behind by the failing update. -/
def usersT3 : Table := (usersT2.update updBad condId1).1

/-- Calls exercised by the C2 witness. -/
def wOpsC2 : List Op :=
  [.ins rowU1, .ins rowU2, .upd [("email", .vStr "c")] condId1,
   .delPk (.vInt 2)]

def condTrue : Row → Bool := fun _ => true

/-- Assignments whose candidate succeeds on row 0 and collides on row 1. -/
def updZZ : Row := [("email", .vStr "zz")]

/-- A one-column INT table. -/
def intT : Table := mkTable "nums" [⟨"n", DataType.INT, false, false, false⟩]

/-- A one-row heap and a table referencing it. -/
def hC8 : Heap := [[("id", .vInt 1)]]

def tC8 : TableRef := ⟨[0]⟩

/-- The one-column table after inserting a row carrying the undeclared
key `x`. -/
def extraT : Table := (intT.insert [("n", .vInt 1), ("x", .vInt 2)]).1

/-- A `departments` table with one row. -/
def deptT : Table :=
  ((mkTable "departments"
    [⟨"did", DataType.INT, true, false, false⟩,
     ⟨"dname", DataType.TEXT, false, false, false⟩]).insert
    [("did", .vInt 1), ("dname", .vStr "eng")]).1

/-- A `members` table with two rows, one of them matching a department. -/
def membersT : Table :=
  (((mkTable "members"
    [⟨"id", DataType.INT, true, false, false⟩,
     ⟨"did", DataType.INT, false, false, false⟩]).insert
    [("id", .vInt 1), ("did", .vInt 1)]).1.insert
    [("id", .vInt 2), ("did", .vInt 2)]).1

/-- A database holding both tables. -/
def dbW : Database :=
  (((mkDatabase "w").create_table membersT).1.create_table deptT).1

/-- A database registering the index-inconsistent state the failing
update left behind. -/
def dbBad : Database := ((mkDatabase "bad").create_table usersT3).1

/-! ## Theorems -/

theorem pyEq_refl (a : Value) : pyEq a a = true := by
  simp [pyEq]

theorem pyEq_symm {a b : Value} (h : pyEq a b = true) : pyEq b a = true := by
  simp [pyEq] at *; exact h.symm

theorem pyEq_key {a b : Value} (h : pyEq a b = true) : a.key = b.key := by
  simpa [pyEq] using h

theorem pyEq_of_key {a b : Value} (h : a.key = b.key) : pyEq a b = true := by
  simpa [pyEq] using h

theorem pyEq_trans {a b c : Value} (h1 : pyEq a b = true) (h2 : pyEq b c = true) :
    pyEq a c = true :=
  pyEq_of_key ((pyEq_key h1).trans (pyEq_key h2))

/-- `None` is only `pyEq` to `None`. -/
theorem pyEq_vNone_iff {a : Value} : pyEq a .vNone = true ↔ a = .vNone := by
  cases a <;> simp [pyEq, Value.key]

namespace Row

@[simp] theorem get?_nil (k : String) : get? ([] : Row) k = none := rfl

@[simp] theorem get?_cons (k' : String) (v' : Value) (rest : Row) (k : String) :
    get? ((k', v') :: rest) k = if k' = k then some v' else get? rest k := by
  simp only [get?, List.find?]
  by_cases h : k' = k <;> simp [h]

@[simp] theorem hasKey_nil (k : String) : hasKey ([] : Row) k = false := rfl

@[simp] theorem hasKey_cons (k' : String) (v' : Value) (rest : Row) (k : String) :
    hasKey ((k', v') :: rest) k = (k' = k || hasKey rest k) := by
  simp only [hasKey, List.find?]
  by_cases h : k' = k <;> simp [h]

theorem hasKey_iff_get? {r : Row} {k : String} :
    hasKey r k = true ↔ ∃ v, get? r k = some v := by
  induction r with
  | nil => simp
  | cons p rest ih =>
    obtain ⟨k', v'⟩ := p
    by_cases h : k' = k <;> simp [h, ih]

theorem get?_set (r : Row) (k : String) (v : Value) (k' : String) :
    get? (set r k v) k' = if k = k' then some v else get? r k' := by
  induction r with
  | nil =>
    simp only [set]
    by_cases h : k = k' <;> simp [h]
  | cons p rest ih =>
    obtain ⟨k₀, v₀⟩ := p
    simp only [set]
    by_cases h0 : k₀ = k
    · subst h0
      by_cases h : k₀ = k' <;> simp [h]
    · simp only [if_neg h0, get?_cons, ih]
      by_cases h : k = k'
      · subst h; simp [h0]
      · simp [h]

theorem getD_set (r : Row) (k : String) (v : Value) (k' : String) :
    getD (set r k v) k' = if k = k' then v else getD r k' := by
  simp only [getD, get?_set]
  by_cases h : k = k' <;> simp [h]

theorem hasKey_eq_isSome_get? (r : Row) (k : String) :
    hasKey r k = (get? r k).isSome := by
  simp [hasKey, get?]

theorem hasKey_set (r : Row) (k : String) (v : Value) (k' : String) :
    hasKey (set r k v) k' = (k = k' || hasKey r k') := by
  rw [hasKey_eq_isSome_get?, hasKey_eq_isSome_get?, get?_set]
  by_cases h : k = k' <;> simp [h]

end Row

namespace DictV

theorem lookup_nil (v : Value) : lookup ([] : DictV) v = none := rfl

theorem lookup_cons (w : Value) (m : Nat) (rest : DictV) (v : Value) :
    lookup ((w, m) :: rest) v = if pyEq w v then some m else lookup rest v := by
  simp only [lookup, List.find?]
  rcases h : pyEq w v <;> simp [h]

theorem lookup_congr {a b : Value} (d : DictV) (h : a.key = b.key) :
    lookup d a = lookup d b := by
  induction d with
  | nil => rfl
  | cons p rest ih =>
    obtain ⟨w, m⟩ := p
    rw [lookup_cons, lookup_cons, ih]
    simp [pyEq, h]

theorem lookup_set (d : DictV) (v : Value) (n : Nat) (w : Value) :
    lookup (set d v n) w = if v.key = w.key then some n else lookup d w := by
  induction d with
  | nil =>
    simp only [set, lookup_cons, lookup_nil, pyEq]
    by_cases h : v.key = w.key <;> simp [h]
  | cons p rest ih =>
    obtain ⟨u, m⟩ := p
    simp only [set]
    rcases hu : pyEq u v
    · simp only [Bool.false_eq_true, if_false, lookup_cons, ih]
      by_cases h : v.key = w.key
      · have : pyEq u w = false := by
          rcases huw : pyEq u w
          · rfl
          · exact absurd (pyEq_of_key ((pyEq_key huw).trans h.symm)) (by simp [hu])
        simp [h, this]
      · simp [h]
    · simp only [if_true, lookup_cons]
      by_cases h : v.key = w.key
      · have : pyEq u w = pyEq u v := by simp [pyEq, h]
        simp [h, this, hu]
      · have : pyEq u w = false := by
          rcases huw : pyEq u w
          · rfl
          · exact absurd ((pyEq_key hu).symm.trans (pyEq_key huw)) h
        simp [h, this, lookup_cons, hu]

theorem keysDistinct_cons {w : Value} {m : Nat} {rest : DictV} :
    keysDistinct ((w, m) :: rest) = true ↔
      (∀ p ∈ rest, pyEq w p.1 = false) ∧ keysDistinct rest = true := by
  simp [keysDistinct, List.all_eq_true]

theorem mem_set {d : DictV} (hd : keysDistinct d = true) (v : Value) (n : Nat)
    {p : Value × Nat} (hp : p ∈ set d v n) :
    (p ∈ d ∧ pyEq p.1 v = false) ∨ (pyEq p.1 v = true ∧ p.2 = n) := by
  induction d with
  | nil =>
    simp only [set, List.mem_singleton] at hp
    subst hp
    exact Or.inr ⟨pyEq_refl v, rfl⟩
  | cons q rest ih =>
    obtain ⟨u, m⟩ := q
    rcases keysDistinct_cons.mp hd with ⟨hdis, hrest⟩
    simp only [set] at hp
    rcases hu : pyEq u v <;> simp only [hu] at hp
    · simp only [Bool.false_eq_true, if_false, List.mem_cons] at hp
      rcases hp with hp | hp
      · subst hp
        exact Or.inl ⟨List.mem_cons_self _ _, hu⟩
      · rcases ih hrest hp with ⟨h1, h2⟩ | h
        · exact Or.inl ⟨List.mem_cons_of_mem _ h1, h2⟩
        · exact Or.inr h
    · simp only [if_true] at hp
      rcases List.mem_cons.mp hp with hp | hp
      · subst hp
        exact Or.inr ⟨hu, rfl⟩
      · refine Or.inl ⟨List.mem_cons_of_mem _ hp, ?_⟩
        rcases hw : pyEq p.1 v
        · rfl
        · have : pyEq u p.1 = true := pyEq_trans hu (pyEq_symm hw)
          exact absurd this (by simp [hdis p hp])

theorem keysDistinct_set {d : DictV} (hd : keysDistinct d = true) (v : Value) (n : Nat) :
    keysDistinct (set d v n) = true := by
  induction d with
  | nil => simp [set, keysDistinct]
  | cons q rest ih =>
    obtain ⟨u, m⟩ := q
    rcases keysDistinct_cons.mp hd with ⟨hdis, hrest⟩
    simp only [set]
    rcases hu : pyEq u v
    · simp only [Bool.false_eq_true, if_false]
      refine keysDistinct_cons.mpr ⟨?_, ih hrest⟩
      intro p hp
      rcases mem_set hrest v n hp with ⟨h1, _⟩ | ⟨h1, _⟩
      · exact hdis p h1
      · rcases huq : pyEq u p.1
        · rfl
        · exact absurd (pyEq_trans huq h1) (by simp [hu])
    · simp only [if_true]
      exact keysDistinct_cons.mpr ⟨hdis, hrest⟩

theorem mem_del {d : DictV} (v : Value) {p : Value × Nat} (hp : p ∈ del d v) : p ∈ d := by
  induction d with
  | nil => simp [del] at hp
  | cons q rest ih =>
    obtain ⟨u, m⟩ := q
    simp only [del] at hp
    rcases hu : pyEq u v <;> simp only [hu] at hp
    · simp only [Bool.false_eq_true, if_false, List.mem_cons] at hp
      rcases hp with hp | hp
      · exact hp ▸ List.mem_cons_self _ _
      · exact List.mem_cons_of_mem _ (ih hp)
    · exact List.mem_cons_of_mem _ hp

theorem keysDistinct_del {d : DictV} (hd : keysDistinct d = true) (v : Value) :
    keysDistinct (del d v) = true := by
  induction d with
  | nil => simpa [del] using hd
  | cons q rest ih =>
    obtain ⟨u, m⟩ := q
    rcases keysDistinct_cons.mp hd with ⟨hdis, hrest⟩
    simp only [del]
    rcases hu : pyEq u v
    · simp only [Bool.false_eq_true, if_false]
      exact keysDistinct_cons.mpr ⟨fun p hp => hdis p (mem_del v hp), ih hrest⟩
    · simpa using hrest

theorem lookup_none_iff {d : DictV} {v : Value} :
    lookup d v = none ↔ ∀ p ∈ d, pyEq p.1 v = false := by
  simp only [lookup, Option.map_eq_none', List.find?_eq_none]
  constructor
  · intro h p hp
    simpa using h p hp
  · intro h p hp
    simp [h p hp]

theorem lookup_some_mem {d : DictV} {v : Value} {n : Nat} (h : lookup d v = some n) :
    ∃ p ∈ d, pyEq p.1 v = true ∧ p.2 = n := by
  unfold lookup at h
  obtain ⟨p, hp1, hp2⟩ := Option.map_eq_some'.mp h
  exact ⟨p, List.mem_of_find?_eq_some hp1, by simpa using List.find?_some hp1, hp2⟩

theorem lookup_del {d : DictV} (hd : keysDistinct d = true) (v w : Value) :
    lookup (del d v) w = if v.key = w.key then none else lookup d w := by
  induction d with
  | nil => simp [del, lookup_nil]
  | cons q rest ih =>
    obtain ⟨u, m⟩ := q
    rcases keysDistinct_cons.mp hd with ⟨hdis, hrest⟩
    simp only [del]
    rcases hu : pyEq u v
    · simp only [Bool.false_eq_true, if_false, lookup_cons, ih hrest]
      by_cases h : v.key = w.key
      · have : pyEq u w = false := by
          rcases huw : pyEq u w
          · rfl
          · exact absurd (pyEq_of_key ((pyEq_key huw).trans h.symm)) (by simp [hu])
        simp [h, this]
      · simp [h]
    · simp only [if_true]
      by_cases h : v.key = w.key
      · rw [if_pos h]
        refine lookup_none_iff.mpr (fun p hp => ?_)
        rcases hpw : pyEq p.1 w
        · rfl
        · have : pyEq u p.1 = true :=
            pyEq_trans (pyEq_of_key ((pyEq_key hu).trans h)) (pyEq_symm hpw)
          exact absurd this (by simp [hdis p hp])
      · rw [if_neg h, lookup_cons]
        have : pyEq u w = false := by
          rcases huw : pyEq u w
          · rfl
          · exact absurd ((pyEq_key hu).symm.trans (pyEq_key huw)) h
        simp [this]

end DictV

namespace USet

theorem mem_nil (v : Value) : mem ([] : USet) v = false := rfl

theorem mem_cons (w : Value) (rest : USet) (v : Value) :
    mem (w :: rest) v = (pyEq w v || mem rest v) := by
  simp [mem]

theorem mem_congr {a b : Value} (s : USet) (h : a.key = b.key) : mem s a = mem s b := by
  simp only [mem]
  congr 1
  funext w
  simp [pyEq, h]

theorem mem_append (s1 s2 : USet) (v : Value) :
    mem (s1 ++ s2) v = (mem s1 v || mem s2 v) := by
  simp [mem, List.any_append]

theorem mem_exists {s : USet} {v : Value} (h : mem s v = true) :
    ∃ w ∈ s, pyEq w v = true := by
  simpa [mem] using h

theorem mem_of_elem {s : USet} {w : Value} (h : w ∈ s) : mem s w = true := by
  simp only [mem, List.any_eq_true]
  exact ⟨w, h, pyEq_refl w⟩

theorem mem_add (s : USet) (v w : Value) :
    mem (add s v) w = (mem s w || pyEq v w) := by
  unfold add
  rcases h : mem s v
  · simp [mem_append, mem_cons, mem_nil]
  · rcases hw : pyEq v w
    · simp
    · obtain ⟨u, hu, huv⟩ := mem_exists h
      have : mem s w = true := by
        rw [← mem_congr s (pyEq_key hw)]
        exact h
      simp [this]

theorem elem_add {s : USet} {v x : Value} (h : x ∈ add s v) : x ∈ s ∨ x = v := by
  unfold add at h
  rcases hm : mem s v <;> simp [hm] at h
  · rcases h with h | h
    · exact Or.inl h
    · exact Or.inr h
  · exact Or.inl h

theorem distinct_cons {w : Value} {rest : USet} :
    distinct (w :: rest) = true ↔
      (∀ u ∈ rest, pyEq w u = false) ∧ distinct rest = true := by
  simp [distinct, List.all_eq_true]

theorem distinct_add {s : USet} (hs : distinct s = true) (v : Value) :
    distinct (add s v) = true := by
  unfold add
  rcases h : mem s v
  · induction s with
    | nil => simp [distinct]
    | cons w rest ih =>
      rcases distinct_cons.mp hs with ⟨hdis, hrest⟩
      rw [mem_cons, Bool.or_eq_false_iff] at h
      refine distinct_cons.mpr ⟨?_, ih hrest h.2⟩
      intro u hu
      rcases List.mem_append.mp hu with hu | hu
      · exact hdis u hu
      · simp only [List.mem_singleton] at hu
        subst hu
        exact h.1
  · exact hs

theorem elem_discard {s : USet} (v : Value) {x : Value} (h : x ∈ discard s v) : x ∈ s := by
  induction s with
  | nil => simp [discard] at h
  | cons w rest ih =>
    simp only [discard] at h
    rcases hw : pyEq w v <;> simp only [hw] at h
    · simp only [Bool.false_eq_true, if_false, List.mem_cons] at h
      rcases h with h | h
      · exact h ▸ List.mem_cons_self _ _
      · exact List.mem_cons_of_mem _ (ih h)
    · exact List.mem_cons_of_mem _ h

theorem distinct_discard {s : USet} (hs : distinct s = true) (v : Value) :
    distinct (discard s v) = true := by
  induction s with
  | nil => simpa [discard] using hs
  | cons w rest ih =>
    rcases distinct_cons.mp hs with ⟨hdis, hrest⟩
    simp only [discard]
    rcases hw : pyEq w v
    · simp only [Bool.false_eq_true, if_false]
      exact distinct_cons.mpr ⟨fun u hu => hdis u (elem_discard v hu), ih hrest⟩
    · simpa using hrest

theorem mem_discard {s : USet} (hs : distinct s = true) (v w : Value) :
    mem (discard s v) w = if v.key = w.key then false else mem s w := by
  induction s with
  | nil => simp [discard, mem_nil]
  | cons u rest ih =>
    rcases distinct_cons.mp hs with ⟨hdis, hrest⟩
    simp only [discard]
    rcases hu : pyEq u v
    · simp only [Bool.false_eq_true, if_false, mem_cons, ih hrest]
      by_cases h : v.key = w.key
      · have : pyEq u w = false := by
          rcases huw : pyEq u w
          · rfl
          · exact absurd (pyEq_of_key ((pyEq_key huw).trans h.symm)) (by simp [hu])
        simp [h, this]
      · simp [h]
    · simp only [if_true]
      by_cases h : v.key = w.key
      · rw [if_pos h]
        rcases hm : mem rest w
        · rfl
        · obtain ⟨p, hp, hpw⟩ := mem_exists hm
          have : pyEq u p = true :=
            pyEq_trans (pyEq_of_key ((pyEq_key hu).trans h)) (pyEq_symm hpw)
          exact absurd this (by simp [hdis p hp])
      · rw [if_neg h, mem_cons]
        have : pyEq u w = false := by
          rcases huw : pyEq u w
          · rfl
          · exact absurd ((pyEq_key hu).symm.trans (pyEq_key huw)) h
        simp [this]

end USet

namespace UIdx

theorem get_nil (c : String) : get ([] : UIdx) c = [] := rfl

theorem get_cons (c' : String) (s' : USet) (rest : UIdx) (c : String) :
    get ((c', s') :: rest) c = if c' = c then s' else get rest c := by
  simp only [get, List.find?]
  by_cases h : c' = c <;> simp [h]

theorem get_setEntry (u : UIdx) (c : String) (s : USet) (c' : String) :
    get (setEntry u c s) c' = if c = c' then s else get u c' := by
  induction u with
  | nil =>
    simp [setEntry, get_cons, get_nil]
  | cons p rest ih =>
    obtain ⟨c₀, s₀⟩ := p
    simp only [setEntry]
    by_cases h0 : c₀ = c
    · subst h0
      simp only [if_true, get_cons]
      by_cases h : c₀ = c' <;> simp [h]
    · simp only [if_neg h0, get_cons, ih]
      by_cases h : c = c'
      · subst h; simp [h0]
      · simp [h]

theorem get_add (u : UIdx) (c : String) (v : Value) (c' : String) :
    get (add u c v) c' = if c = c' then (get u c).add v else get u c' := by
  simp [add, get_setEntry]

theorem get_discard (u : UIdx) (c : String) (v : Value) (c' : String) :
    get (discard u c v) c' = if c = c' then (get u c).discard v else get u c' := by
  simp [discard, get_setEntry]

end UIdx

theorem colPairwise_iff (c : String) (l : List Row) :
    colPairwise c l = true ↔ List.Pairwise
      (fun r1 r2 => Row.getD r1 c = .vNone ∨ Row.getD r2 c = .vNone ∨
        pyEq (Row.getD r1 c) (Row.getD r2 c) = false) l := by
  induction l with
  | nil => simp [colPairwise]
  | cons r rest ih =>
    simp only [colPairwise, Bool.and_eq_true, List.all_eq_true, List.pairwise_cons, ih]
    constructor
    · rintro ⟨h1, h2⟩
      refine ⟨fun r2 hr2 => ?_, h2⟩
      have := h1 r2 hr2
      rcases h3 : decide (Row.getD r c = Value.vNone) with _ | _
      · rcases h4 : decide (Row.getD r2 c = Value.vNone) with _ | _
        · simp only [h3, h4, Bool.false_or] at this
          exact Or.inr (Or.inr (by simpa using this))
        · exact Or.inr (Or.inl (by simpa using h4))
      · exact Or.inl (by simpa using h3)
    · rintro ⟨h1, h2⟩
      refine ⟨fun r2 hr2 => ?_, h2⟩
      rcases h1 r2 hr2 with h | h | h
      · simp [h]
      · simp [h]
      · simp [h]

theorem checkInv_sound {t : Table} (h : checkInv t = true) : Inv t := by
  simp only [checkInv, Bool.and_eq_true] at h
  obtain ⟨⟨⟨hwf, hpk⟩, huc⟩, hnd⟩ := h
  refine ⟨?_, ?_, ?_, by simpa using hnd⟩
  · intro r hr c hc
    simp only [checkRowsWF, List.all_eq_true] at hwf
    exact hwf r hr c hc
  · unfold checkPkInv at hpk
    unfold PkInv
    rcases hpko : t.primary_key with _ | pk <;> rw [hpko] at hpk
    · simpa [List.isEmpty_iff] using hpk
    · simp only [Bool.and_eq_true, List.all_eq_true] at hpk
      obtain ⟨⟨hfwd, hbwd⟩, hdis⟩ := hpk
      refine ⟨?_, ?_, hdis⟩
      · intro i hi
        have := hfwd i (List.mem_range.mpr hi)
        rw [List.getD_eq_getElem?_getD, List.getElem?_eq_getElem hi] at this
        simpa [List.get_eq_getElem] using this
      · intro p hp
        have := hbwd p hp
        simp only [Bool.and_eq_true, decide_eq_true_eq] at this
        obtain ⟨h1, h2⟩ := this
        refine ⟨h1, ?_⟩
        rw [List.getD_eq_getElem?_getD, List.getElem?_eq_getElem h1] at h2
        simpa [List.get_eq_getElem] using h2
  · intro c hc hcpk
    simp only [checkUniqInv, List.all_eq_true] at huc
    have := huc c hc
    rcases hdec : decide (t.primary_key = some c) with _ | _
    · rw [hdec] at this
      simp only [Bool.false_or, Bool.and_eq_true, List.all_eq_true] at this
      obtain ⟨⟨⟨hf, hb⟩, hs⟩, hp⟩ := this
      refine ⟨?_, ?_, hs, (colPairwise_iff c t.rows).mp hp⟩
      · intro r hr hne
        have := hf r hr
        rcases h3 : decide (Row.getD r c = Value.vNone) with _ | _
        · simpa [h3] using this
        · exact absurd (by simpa using h3) hne
      · intro w hw
        have := hb w hw
        simp only [Bool.and_eq_true, List.any_eq_true] at this
        exact ⟨by simpa using this.1, this.2⟩
    · exact absurd (by simpa using hdec) hcpk

/-! ### Consequences of the invariant -/
/-- A boolean predicate true at exactly one position selects exactly that
element under `find?`. -/
theorem find?_eq_of_unique {α : Type} {l : List α} {p : α → Bool} {j : Nat}
    (hj : j < l.length) (hpj : p (l.get ⟨j, hj⟩) = true)
    (hne : ∀ i (hi : i < l.length), p (l.get ⟨i, hi⟩) = true → i = j) :
    l.find? p = some (l.get ⟨j, hj⟩) := by
  induction l generalizing j with
  | nil => simp at hj
  | cons a rest ih =>
    cases j with
    | zero =>
      simp only [List.get_eq_getElem, List.getElem_cons_zero] at hpj ⊢
      simp [List.find?_cons_of_pos _ hpj]
    | succ j =>
      have hpa : p a = false := by
        rcases hpa : p a
        · rfl
        · exact absurd (hne 0 (by omega) (by simpa using hpa)) (by omega)
      rw [List.find?_cons_of_neg _ (by simp [hpa])]
      have hj' : j < rest.length := by simpa using hj
      have := ih hj' (by simpa using hpj) (fun i hi hp => by
        have := hne (i + 1) (by simpa using hi) (by simpa using hp)
        omega)
      simpa using this

/-- A boolean predicate true at exactly one position filters to exactly
that element. -/
theorem filter_eq_of_unique {α : Type} {l : List α} {p : α → Bool} {j : Nat}
    (hj : j < l.length) (hpj : p (l.get ⟨j, hj⟩) = true)
    (hne : ∀ i (hi : i < l.length), p (l.get ⟨i, hi⟩) = true → i = j) :
    l.filter p = [l.get ⟨j, hj⟩] := by
  induction l generalizing j with
  | nil => simp at hj
  | cons a rest ih =>
    cases j with
    | zero =>
      simp only [List.get_eq_getElem, List.getElem_cons_zero] at hpj ⊢
      rw [List.filter_cons_of_pos hpj]
      have : rest.filter p = [] := by
        rw [List.filter_eq_nil_iff]
        intro b hb hpb
        obtain ⟨⟨i, hi⟩, rfl⟩ := List.mem_iff_get.mp hb
        exact absurd (hne (i + 1) (by simp; omega) (by simpa using hpb)) (by omega)
      simp [this]
    | succ j =>
      have hpa : p a = false := by
        rcases hpa : p a
        · rfl
        · exact absurd (hne 0 (by omega) (by simpa using hpa)) (by omega)
      rw [List.filter_cons_of_neg (by simp [hpa])]
      have hj' : j < rest.length := by simpa using hj
      have := ih hj' (by simpa using hpj) (fun i hi hp => by
        have := hne (i + 1) (by simpa using hi) (by simpa using hp)
        omega)
      simpa using this

theorem PkInvAt.lookup_some_iff {pk : String} {rows : List Row} {d : DictV}
    (hp : PkInvAt pk rows d) {v : Value} {j : Nat} :
    d.lookup v = some j ↔
      ∃ h : j < rows.length, pyEq (Row.getD (rows.get ⟨j, h⟩) pk) v = true := by
  constructor
  · intro h
    obtain ⟨p, hpmem, hpeq, hp2⟩ := DictV.lookup_some_mem h
    obtain ⟨hlt, hrow⟩ := hp.bwd p hpmem
    subst hp2
    exact ⟨hlt, pyEq_trans hrow hpeq⟩
  · rintro ⟨h, heq⟩
    rw [DictV.lookup_congr d ((pyEq_key heq).symm)]
    exact hp.fwd j h

theorem PkInvAt.lookup_none_iff_noRow {pk : String} {rows : List Row} {d : DictV}
    (hp : PkInvAt pk rows d) {v : Value} :
    d.lookup v = none ↔
      ∀ i (h : i < rows.length), pyEq (Row.getD (rows.get ⟨i, h⟩) pk) v = false := by
  constructor
  · intro h i hi
    rcases heq : pyEq (Row.getD (rows.get ⟨i, hi⟩) pk) v
    · rfl
    · rw [hp.lookup_some_iff.mpr ⟨hi, heq⟩] at h
      exact absurd h (by simp)
  · intro h
    rcases hlk : d.lookup v with _ | j
    · rfl
    · obtain ⟨hj, heq⟩ := hp.lookup_some_iff.mp hlk
      exact absurd (heq.symm.trans (h j hj)) (by decide)

/-- In a consistent table the primary-key values of distinct rows are not
Python-equal. -/
theorem PkInvAt.rowsDistinct {pk : String} {rows : List Row} {d : DictV}
    (hp : PkInvAt pk rows d)
    {i j : Nat} (hi : i < rows.length) (hj : j < rows.length) (hij : i ≠ j) :
    pyEq (Row.getD (rows.get ⟨i, hi⟩) pk) (Row.getD (rows.get ⟨j, hj⟩) pk) = false := by
  rcases h : pyEq (Row.getD (rows.get ⟨i, hi⟩) pk) (Row.getD (rows.get ⟨j, hj⟩) pk)
  · rfl
  · exfalso
    have h1 := hp.fwd i hi
    have h2 := hp.fwd j hj
    rw [DictV.lookup_congr d (pyEq_key h)] at h1
    rw [h2] at h1
    have : j = i := by simpa using h1
    exact hij this.symm

/-- In a consistent table the indexed primary-key lookup returns exactly
what a full scan for the key finds: the claim-level reading of index
consistency. -/
theorem get_by_primary_key_eq_scan {t : Table} {pk : String}
    (hpko : t.primary_key = some pk)
    (hp : PkInvAt pk t.rows t.primary_key_index) (v : Value) :
    t.get_by_primary_key v = .ok (t.rows.find? (fun r => pyEq (Row.getD r pk) v)) := by
  unfold Table.get_by_primary_key
  rw [hpko]
  rcases hlk : t.primary_key_index.lookup v with _ | j
  · have : t.rows.find? (fun r => pyEq (Row.getD r pk) v) = none := by
      rw [List.find?_eq_none]
      intro r hr hcon
      obtain ⟨i, rfl⟩ := List.mem_iff_get.mp hr
      have := (hp.lookup_none_iff_noRow.mp hlk) i.1 i.2
      simp only [List.get_eq_getElem, Fin.eta] at this hcon
      exact absurd (hcon.symm.trans this) (by decide)
    simp [this]
  · obtain ⟨hj, heq⟩ := hp.lookup_some_iff.mp hlk
    have hfind : t.rows.find? (fun r => pyEq (Row.getD r pk) v) =
        some (t.rows.get ⟨j, hj⟩) := by
      refine find?_eq_of_unique hj heq (fun i hi hpi => ?_)
      have h1 := hp.fwd i hi
      rw [DictV.lookup_congr t.primary_key_index (pyEq_key hpi)] at h1
      rw [hlk] at h1
      simpa using h1.symm
    rw [hfind]
    have : t.rows[j]? = some (t.rows.get ⟨j, hj⟩) := by
      simp [List.getElem?_eq_getElem hj]
    simp [this]

/-! ### Join equivalence -/
theorem rows_ne_nil_of_wf {t : Table} (hwf : RowsWF t) {c : String}
    (hc : c ∈ t.column_names) {r : Row} (hr : r ∈ t.rows) : r ≠ ([] : Row) := by
  intro hnil
  have := hwf r hr c hc
  rw [hnil] at this
  simp [Row.hasKey] at this

/-- Under a consistent right-table primary-key index, the indexed scan of
the optimized join produces exactly the rows of the nested scan, in the
same order. -/
theorem optJoinLoop_eq {lname rname : String} {lcols : List String} {rt : Table}
    {lcol rcol : String} (hpko : rt.primary_key = some rcol)
    (hp : PkInvAt rcol rt.rows rt.primary_key_index)
    (hwf : ∀ r ∈ rt.rows, r ≠ ([] : Row)) :
    ∀ lrows : List Row,
      optJoinLoop lname lcols rname rt lcol lrows =
        .ok (lrows.flatMap (fun lrow =>
          (rt.rows.filter (fun rrow => pyEq (Row.getD lrow lcol) (Row.getD rrow rcol))).map
            (fun rrow => mkJoined lname lcols rname rt.column_names lrow rrow)))
  | [] => by simp [optJoinLoop]
  | lrow :: rest => by
    have ihr := @optJoinLoop_eq lname rname lcols rt lcol rcol hpko hp hwf rest
    simp only [optJoinLoop]
    unfold Table.get_by_primary_key
    rw [hpko]
    rcases hlk : rt.primary_key_index.lookup (Row.getD lrow lcol) with _ | j
    · have hfil : rt.rows.filter
          (fun rrow => pyEq (Row.getD lrow lcol) (Row.getD rrow rcol)) = [] := by
        rw [List.filter_eq_nil_iff]
        intro rrow hrrow hcon
        obtain ⟨⟨i, hi⟩, rfl⟩ := List.mem_iff_get.mp hrrow
        have := (hp.lookup_none_iff_noRow.mp hlk) i hi
        exact absurd ((pyEq_symm hcon).symm.trans this) (by decide)
      simp [ihr, hfil, List.flatMap_cons, Bind.bind, Except.bind]
    · obtain ⟨hj, heq⟩ := hp.lookup_some_iff.mp hlk
      have hjget : rt.rows[j]? = some (rt.rows.get ⟨j, hj⟩) := by
        simp [List.getElem?_eq_getElem hj]
      have hne : rt.rows.get ⟨j, hj⟩ ≠ ([] : Row) :=
        hwf _ (List.get_mem rt.rows j hj)
      rw [List.get_eq_getElem] at hne
      have hfil : rt.rows.filter
          (fun rrow => pyEq (Row.getD lrow lcol) (Row.getD rrow rcol)) =
          [rt.rows.get ⟨j, hj⟩] := by
        refine filter_eq_of_unique hj (pyEq_symm heq) (fun i hi hpi => ?_)
        have h1 := hp.fwd i hi
        rw [DictV.lookup_congr rt.primary_key_index (pyEq_key (pyEq_symm hpi))] at h1
        rw [hlk] at h1
        simpa using h1.symm
      simp [hjget, ihr, hne, hfil, List.flatMap_cons, Bind.bind, Except.bind]

theorem get_table_inv {db : Database} (hdb : DbInv db) {n : String} {t : Table}
    (h : db.get_table n = .ok t) : Inv t := by
  unfold Database.get_table at h
  rcases hf : db.tables.find? (fun p => p.1 = n) with _ | p
  · rw [hf] at h
    simp at h
  · rw [hf] at h
    simp only [Option.map_some'] at h
    have hmem := List.mem_of_find?_eq_some hf
    have : p.2 = t := by
      simpa using h
    exact this ▸ hdb p hmem

/-- **C1** (amended): `inner_join` and `inner_join_optimized` return
identical results (same rows, same order, same errors) for every pair of
table names, join columns and optional projection list, over any database
whose tables satisfy the index invariant — every state reachable without
a raising `update` call — in particular when the right join column is the
right table's primary key, where the optimized path uses the index.  On a
state left by a raising `update`, whose primary-key index is broken, the
two joins can disagree (see the counterexample). -/
theorem c1_join_equivalence (db : Database) (lname rname lcol rcol : String)
    (sel : List String) (hdb : DbInv db) :
    db.inner_join_optimized lname rname lcol rcol sel =
      db.inner_join lname rname lcol rcol sel := by
  unfold Database.inner_join_optimized Database.inner_join
  rcases hl : db.get_table lname with e | lt
  · simp [Bind.bind, Except.bind]
  · rcases hr : db.get_table rname with e | rt
    · simp [Bind.bind, Except.bind]
    · simp only [Bind.bind, Except.bind]
      by_cases hlc : lcol ∈ lt.column_names
      · by_cases hrc : rcol ∈ rt.column_names
        · by_cases hpk : rt.primary_key = some rcol
          · have hinv := get_table_inv hdb hr
            have hp : PkInvAt rcol rt.rows rt.primary_key_index := by
              have := hinv.pki
              unfold PkInv at this
              rw [hpk] at this
              exact this
            have hwf : ∀ r ∈ rt.rows, r ≠ ([] : Row) :=
              fun r hr' => rows_ne_nil_of_wf hinv.wf hrc hr'
            rw [@optJoinLoop_eq lname rname lt.column_names rt lcol rcol hpk hp hwf lt.rows]
            simp [hlc, hrc, hpk, joinResult, Bind.bind, Except.bind]
          · simp [hlc, hrc, hpk]
        · simp [hlc, hrc]
      · simp [hlc]

/-! ### Invariant preservation: `insert` -/
theorem materialize_hasKey_mono :
    ∀ {cols : List Column} {row row' : Row}, materialize cols row = .ok row' →
      ∀ {k : String}, row.hasKey k = true → row'.hasKey k = true
  | [], row, row', h, k, hk => by
    simp only [materialize] at h
    cases h
    exact hk
  | col :: rest, row, row', h, k, hk => by
    simp only [materialize] at h
    rcases hck : row.hasKey col.name with _ | _ <;> rw [hck] at h
    · simp only [Bool.false_eq_true, if_false] at h
      rcases hnn : col.not_null with _ | _ <;> rw [hnn] at h
      · simp only [Bool.false_eq_true, if_false] at h
        exact materialize_hasKey_mono h (by simp [Row.hasKey_set, hk])
      · simp at h
    · simp only [if_true] at h
      exact materialize_hasKey_mono h hk

theorem materialize_hasKey_all :
    ∀ {cols : List Column} {row row' : Row}, materialize cols row = .ok row' →
      ∀ col ∈ cols, row'.hasKey col.name = true
  | [], _, _, _ => by simp
  | col :: rest, row, row', h => by
    simp only [materialize] at h
    intro c hc
    rcases List.mem_cons.mp hc with hceq | hcrest
    · subst hceq
      rcases hck : row.hasKey c.name with _ | _ <;> rw [hck] at h
      · simp only [Bool.false_eq_true, if_false] at h
        rcases hnn : c.not_null with _ | _ <;> rw [hnn] at h
        · simp only [Bool.false_eq_true, if_false] at h
          exact materialize_hasKey_mono h (by simp [Row.hasKey_set])
        · simp at h
      · simp only [if_true] at h
        exact materialize_hasKey_mono h hck
    · rcases hck : row.hasKey col.name with _ | _ <;> rw [hck] at h
      · simp only [Bool.false_eq_true, if_false] at h
        rcases hnn : col.not_null with _ | _ <;> rw [hnn] at h
        · simp only [Bool.false_eq_true, if_false] at h
          exact materialize_hasKey_all h c hcrest
        · simp at h
      · simp only [if_true] at h
        exact materialize_hasKey_all h c hcrest

theorem validate_row_ok {t : Table} {row row' : Row}
    (h : t.validate_row row = .ok row') :
    materialize t.columns row = .ok row' ∧ checkPk t row' = .ok () ∧
      checkUnique t t.unique_columns row' = .ok () := by
  unfold Table.validate_row at h
  rcases hm : materialize t.columns row with e | rowm <;>
    simp only [hm, Bind.bind, Except.bind] at h
  · cases h
  · rcases ht : checkTypes t.columns rowm with e | u <;> rw [ht] at h
    · cases h
    · rcases hpk : checkPk t rowm with e | u2 <;> rw [hpk] at h
      · cases h
      · rcases hu : checkUnique t t.unique_columns rowm with e | u3 <;> rw [hu] at h
        · cases h
        · have heq : rowm = row' := by
            simpa [pure, Except.pure] using h
          subst heq
          exact ⟨rfl, by cases u2; exact hpk, by cases u3; exact hu⟩

theorem checkPk_ok {t : Table} {row : Row} (h : checkPk t row = .ok ()) :
    ∀ pk, t.primary_key = some pk →
      t.primary_key_index.lookup (Row.getD row pk) = none := by
  intro pk hpk
  rcases hlk : t.primary_key_index.lookup (Row.getD row pk) with _ | n
  · rfl
  · exfalso
    have hc : t.primary_key_index.contains (Row.getD row pk) = true := by
      simp [DictV.contains, hlk]
    simp [checkPk, hpk, hc] at h

theorem checkUnique_ok {t : Table} :
    ∀ (cs : List String) (row : Row), checkUnique t cs row = .ok () →
      ∀ c ∈ cs, t.primary_key ≠ some c → Row.getD row c ≠ .vNone →
        (t.unique_indexes.get c).mem (Row.getD row c) = false
  | [], _, _ => by simp
  | c0 :: rest, row, h => by
    intro c hc hcpk hcnn
    simp only [checkUnique] at h
    rcases List.mem_cons.mp hc with hceq | hcrest
    · subst hceq
      rw [if_pos hcpk] at h
      split at h
      · cases h
      · rename_i hcond
        rcases hm : (t.unique_indexes.get c).mem (Row.getD row c) with _ | _
        · rfl
        · exact absurd ⟨hcnn, hm⟩ hcond
    · by_cases h0 : t.primary_key ≠ some c0
      · rw [if_pos h0] at h
        split at h
        · cases h
        · exact checkUnique_ok rest row h c hcrest hcpk hcnn
      · rw [if_neg h0] at h
        exact checkUnique_ok rest row h c hcrest hcpk hcnn

theorem unique_columns_sublist (t : Table) : t.unique_columns.Sublist t.column_names :=
  (List.filter_sublist t.columns).map Column.name

theorem unique_columns_nodup {t : Table} (h : t.column_names.Nodup) :
    t.unique_columns.Nodup :=
  h.sublist (unique_columns_sublist t)

theorem unique_columns_subset {t : Table} {c : String} (h : c ∈ t.unique_columns) :
    c ∈ t.column_names :=
  (unique_columns_sublist t).subset h

theorem primary_key_mem {t : Table} {pk : String} (h : t.primary_key = some pk) :
    pk ∈ t.column_names := by
  unfold Table.primary_key at h
  rcases hf : t.columns.find? (·.is_primary_key) with _ | col <;> rw [hf] at h
  · cases h
  · simp only [Option.map_some'] at h
    cases h
    exact List.mem_map_of_mem Column.name (List.mem_of_find?_eq_some hf)

theorem addUniques_get (pkOpt : Option String) :
    ∀ {ucols : List String}, ucols.Nodup → ∀ (row : Row) (u : UIdx) (c : String),
      (addUniques pkOpt ucols row u).get c =
        if c ∈ ucols ∧ pkOpt ≠ some c ∧ Row.getD row c ≠ .vNone then
          (u.get c).add (Row.getD row c)
        else u.get c
  | [], _, row, u, c => by simp [addUniques]
  | c0 :: rest, hnd, row, u, c => by
    have hnd' : rest.Nodup := hnd.of_cons
    have hc0 : c0 ∉ rest := by
      intro hmem
      exact (List.nodup_cons.mp hnd).1 hmem
    simp only [addUniques, List.foldl_cons]
    have step :
        (if pkOpt ≠ some c0 then
          if Row.getD row c0 ≠ Value.vNone then u.add c0 (Row.getD row c0) else u
        else u) = (if pkOpt ≠ some c0 ∧ Row.getD row c0 ≠ Value.vNone then
          u.add c0 (Row.getD row c0) else u) := by
      by_cases h1 : pkOpt ≠ some c0 <;> by_cases h2 : Row.getD row c0 ≠ Value.vNone <;>
        simp [h1, h2]
    rw [show List.foldl
        (fun acc c => if pkOpt ≠ some c then
          if Row.getD row c ≠ Value.vNone then acc.add c (Row.getD row c) else acc
        else acc) _ rest = addUniques pkOpt rest row _ from rfl]
    rw [@addUniques_get pkOpt rest hnd' row _ c]
    by_cases hcc0 : c = c0
    · subst hcc0
      have hnotin : ¬ (c ∈ rest ∧ pkOpt ≠ some c ∧ Row.getD row c ≠ Value.vNone) :=
        fun hcon => hc0 hcon.1
      rw [if_neg hnotin, step]
      by_cases h1 : pkOpt ≠ some c <;> by_cases h2 : Row.getD row c ≠ Value.vNone
      · simp [h1, h2, UIdx.get_add]
      · simp [h1, h2]
      · simp [h1, h2]
      · simp [h1, h2]
    · have hgu : (if pkOpt ≠ some c0 ∧ Row.getD row c0 ≠ Value.vNone then
          u.add c0 (Row.getD row c0) else u).get c = u.get c := by
        by_cases h1 : pkOpt ≠ some c0 ∧ Row.getD row c0 ≠ Value.vNone
        · rw [if_pos h1, UIdx.get_add, if_neg (fun h : c0 = c => hcc0 h.symm)]
        · simp [h1]
      rw [step, hgu]
      by_cases hin : c ∈ rest
      · simp [hin, hcc0]
      · simp [hin, hcc0]

theorem PkInv_of_some {t : Table} {pk : String} (h : t.primary_key = some pk)
    (hp : PkInvAt pk t.rows t.primary_key_index) : PkInv t := by
  unfold PkInv
  rw [h]
  exact hp

theorem PkInv_of_none {t : Table} (h : t.primary_key = none)
    (h2 : t.primary_key_index = []) : PkInv t := by
  unfold PkInv
  rw [h]
  exact h2

theorem PkInvAt_of_PkInv {t : Table} {pk : String} (h : t.primary_key = some pk)
    (hp : PkInv t) : PkInvAt pk t.rows t.primary_key_index := by
  unfold PkInv at hp
  rw [h] at hp
  exact hp

theorem pkIndex_empty_of_none {t : Table} (h : t.primary_key = none)
    (hp : PkInv t) : t.primary_key_index = [] := by
  unfold PkInv at hp
  rw [h] at hp
  exact hp

theorem wf_mem_hasKey {t : Table} (hwf : RowsWF t) {r : Row} (hr : r ∈ t.rows)
    {c : String} (hc : c ∈ t.column_names) : r.hasKey c = true :=
  hwf r hr c hc

/-- The uniqueness-index components of a successful insert stay consistent
with the extended row sequence. -/
theorem uniqInv_insert {t : Table} (hinv : Inv t) {row' : Row}
    (huok : checkUnique t t.unique_columns row' = .ok ()) {c : String}
    (hc : c ∈ t.unique_columns) (hcpk : t.primary_key ≠ some c) :
    (∀ r ∈ t.rows ++ [row'], Row.getD r c ≠ .vNone →
      ((addUniques t.primary_key t.unique_columns row' t.unique_indexes).get c).mem
        (Row.getD r c) = true) ∧
    (∀ w ∈ (addUniques t.primary_key t.unique_columns row' t.unique_indexes).get c,
      w ≠ .vNone ∧ ∃ r ∈ t.rows ++ [row'], pyEq (Row.getD r c) w = true) ∧
    USet.distinct
      ((addUniques t.primary_key t.unique_columns row' t.unique_indexes).get c) = true ∧
    List.Pairwise
      (fun r1 r2 => Row.getD r1 c = .vNone ∨ Row.getD r2 c = .vNone ∨
        pyEq (Row.getD r1 c) (Row.getD r2 c) = false) (t.rows ++ [row']) := by
  have hui := hinv.uniq c hc hcpk
  have hget := addUniques_get t.primary_key (unique_columns_nodup hinv.nodup) row'
    t.unique_indexes c
  by_cases hnn : Row.getD row' c = Value.vNone
  · have hs : (addUniques t.primary_key t.unique_columns row' t.unique_indexes).get c =
        t.unique_indexes.get c := by
      rw [hget, if_neg]
      rintro ⟨_, _, hcon⟩
      exact hcon hnn
    rw [hs]
    refine ⟨?_, ?_, hui.sdis, ?_⟩
    · intro r hr hrnn
      rcases List.mem_append.mp hr with hr | hr
      · exact hui.fwd r hr hrnn
      · simp only [List.mem_singleton] at hr
        subst hr
        exact absurd hnn hrnn
    · intro w hw
      obtain ⟨h1, r, hr, h2⟩ := hui.bwd w hw
      exact ⟨h1, r, List.mem_append_left _ hr, h2⟩
    · rw [List.pairwise_append]
      refine ⟨hui.rdis, List.pairwise_singleton _ _, ?_⟩
      intro r1 _ r2 hr2
      simp only [List.mem_singleton] at hr2
      subst hr2
      exact Or.inr (Or.inl hnn)
  · have hmem : (t.unique_indexes.get c).mem (Row.getD row' c) = false :=
      checkUnique_ok t.unique_columns row' huok c hc hcpk hnn
    have hs : (addUniques t.primary_key t.unique_columns row' t.unique_indexes).get c =
        (t.unique_indexes.get c).add (Row.getD row' c) := by
      rw [hget, if_pos ⟨hc, hcpk, hnn⟩]
    rw [hs]
    refine ⟨?_, ?_, USet.distinct_add hui.sdis _, ?_⟩
    · intro r hr hrnn
      rcases List.mem_append.mp hr with hr | hr
      · rw [USet.mem_add]
        simp [hui.fwd r hr hrnn]
      · simp only [List.mem_singleton] at hr
        subst hr
        rw [USet.mem_add]
        simp [pyEq_refl]
    · intro w hw
      rcases USet.elem_add hw with hw | hw
      · obtain ⟨h1, r, hr, h2⟩ := hui.bwd w hw
        exact ⟨h1, r, List.mem_append_left _ hr, h2⟩
      · subst hw
        exact ⟨hnn, row', List.mem_append_right _ (List.mem_singleton_self _),
          pyEq_refl _⟩
    · rw [List.pairwise_append]
      refine ⟨hui.rdis, List.pairwise_singleton _ _, ?_⟩
      intro r1 hr1 r2 hr2
      simp only [List.mem_singleton] at hr2
      subst hr2
      by_cases h1 : Row.getD r1 c = Value.vNone
      · exact Or.inl h1
      · refine Or.inr (Or.inr ?_)
        rcases hcon : pyEq (Row.getD r1 c) (Row.getD r2 c)
        · rfl
        · exfalso
          have hf := hui.fwd r1 hr1 h1
          obtain ⟨w, hws, hweq⟩ := USet.mem_exists hf
          have : (t.unique_indexes.get c).mem (Row.getD r2 c) = true := by
            rw [← USet.mem_congr _ (pyEq_key hcon)]
            exact hf
          rw [this] at hmem
          cases hmem

/-- C5 helper / C2 helper: a successful insert preserves the invariant;
a failed insert leaves the table untouched. -/
theorem Inv_insert {t : Table} (hinv : Inv t) (row : Row) : Inv (t.insert row).1 := by
  unfold Table.insert
  rcases hv : t.validate_row row with e | row'
  · exact hinv
  · obtain ⟨hm, hpkok, huok⟩ := validate_row_ok hv
    have hwfnew : ∀ c ∈ t.column_names, row'.hasKey c = true := by
      intro c hcm
      obtain ⟨col, hcol, rfl⟩ := List.mem_map.mp hcm
      exact materialize_hasKey_all hm col hcol
    rcases hpko : t.primary_key with _ | pk
    · simp only [hpko]
      refine ⟨?_, ?_, ?_, hinv.nodup⟩
      · intro r hr c hcm
        rcases List.mem_append.mp hr with hr | hr
        · exact hinv.wf r hr c hcm
        · simp only [List.mem_singleton] at hr
          subst hr
          exact hwfnew c hcm
      · refine PkInv_of_none ?_ ?_
        · exact hpko
        · exact @pkIndex_empty_of_none t hpko hinv.pki
      · intro c hc hcpk
        have hcpk' : t.primary_key ≠ some c := by rw [hpko]; exact hpko ▸ hcpk
        obtain ⟨h1, h2, h3, h4⟩ := uniqInv_insert hinv huok hc hcpk'
        rw [hpko] at h1 h2 h3
        exact ⟨h1, h2, h3, h4⟩
    · simp only [hpko]
      have hlknone := checkPk_ok hpkok pk hpko
      have hpinv : PkInvAt pk t.rows t.primary_key_index :=
        PkInvAt_of_PkInv hpko hinv.pki
      refine ⟨?_, ?_, ?_, hinv.nodup⟩
      · intro r hr c hcm
        rcases List.mem_append.mp hr with hr | hr
        · exact hinv.wf r hr c hcm
        · simp only [List.mem_singleton] at hr
          subst hr
          exact hwfnew c hcm
      · refine PkInv_of_some hpko ⟨?_, ?_, ?_⟩
        · intro i hi
          simp only [List.length_append, List.length_singleton] at hi
          by_cases hilt : i < t.rows.length
          · have hgi : (t.rows ++ [row']).get ⟨i, by simpa using hi⟩ =
                t.rows.get ⟨i, hilt⟩ := by
              simp [List.getElem_append_left hilt]
            rw [hgi, DictV.lookup_set]
            have hne : ¬ (Row.getD row' pk).key =
                (Row.getD (t.rows.get ⟨i, hilt⟩) pk).key := by
              intro hcon
              have := hpinv.fwd i hilt
              rw [← DictV.lookup_congr t.primary_key_index hcon] at this
              rw [hlknone] at this
              cases this
            rw [if_neg hne]
            exact hpinv.fwd i hilt
          · have hieq : i = t.rows.length := by omega
            subst hieq
            have hgi : (t.rows ++ [row']).get ⟨t.rows.length, by simp⟩ = row' := by
              simp
            rw [hgi, DictV.lookup_set, if_pos rfl]
        · intro p hp
          rcases DictV.mem_set hpinv.dis (Row.getD row' pk) t.rows.length hp with
            ⟨hpmem, hpne⟩ | ⟨hpeq, hp2⟩
          · obtain ⟨hlt, heq⟩ := hpinv.bwd p hpmem
            refine ⟨by simp; omega, ?_⟩
            have hgi : (t.rows ++ [row']).get ⟨p.2, by simp; omega⟩ =
                t.rows.get ⟨p.2, hlt⟩ := by
              simp [List.getElem_append_left hlt]
            rw [hgi]
            exact heq
          · refine ⟨by simp [hp2], ?_⟩
            have hgi : (t.rows ++ [row']).get ⟨p.2, by simp [hp2]⟩ = row' := by
              simp [hp2]
            rw [hgi]
            exact pyEq_symm hpeq
        · exact DictV.keysDistinct_set hpinv.dis _ _
      · intro c hc hcpk
        have hcpk' : t.primary_key ≠ some c := by rw [hpko]; exact hpko ▸ hcpk
        obtain ⟨h1, h2, h3, h4⟩ := uniqInv_insert hinv huok hc hcpk'
        rw [hpko] at h1 h2 h3
        exact ⟨h1, h2, h3, h4⟩

/-! ### Invariant preservation: `delete` and `delete_by_primary_key` -/
theorem eraseIdx_getElem?_lt {α : Type} :
    ∀ (l : List α) (i j : Nat), j < i → (l.eraseIdx i)[j]? = l[j]?
  | [], _, _, _ => by simp [List.eraseIdx]
  | a :: as, 0, j, h => by omega
  | a :: as, i+1, 0, h => by simp [List.eraseIdx]
  | a :: as, i+1, j+1, h => by
    simp only [List.eraseIdx, List.getElem?_cons_succ]
    exact eraseIdx_getElem?_lt as i j (by omega)

theorem eraseIdx_getElem?_ge {α : Type} :
    ∀ (l : List α) (i j : Nat), i ≤ j → (l.eraseIdx i)[j]? = l[j + 1]?
  | [], _, _, _ => by simp [List.eraseIdx]
  | a :: as, 0, j, h => by simp [List.eraseIdx]
  | a :: as, i+1, 0, h => by omega
  | a :: as, i+1, j+1, h => by
    simp only [List.eraseIdx, List.getElem?_cons_succ]
    exact eraseIdx_getElem?_ge as i j (by omega)

theorem mem_eraseIdx_pos {α : Type} {l : List α} {i : Nat} {x : α}
    (hx : x ∈ l.eraseIdx i) : ∃ j, ∃ h : j < l.length, j ≠ i ∧ l[j] = x := by
  obtain ⟨k, hk, hxk⟩ := List.mem_iff_getElem.mp hx
  by_cases hki : k < i
  · have h1 := eraseIdx_getElem?_lt l i k hki
    rw [List.getElem?_eq_getElem hk] at h1
    have hkl : k < l.length :=
      lt_of_lt_of_le hk (List.eraseIdx_sublist l i).length_le
    rw [List.getElem?_eq_getElem hkl] at h1
    exact ⟨k, hkl, by omega, by rw [← hxk]; exact (Option.some_inj.mp h1).symm⟩
  · have h1 := eraseIdx_getElem?_ge l i k (by omega)
    rw [List.getElem?_eq_getElem hk] at h1
    have hkl : k + 1 < l.length := by
      have := (List.eraseIdx_sublist l i).length_le
      rcases Nat.lt_or_ge i l.length with hi | hi
      · have := List.length_eraseIdx_of_lt hi
        omega
      · rw [List.eraseIdx_of_length_le hi] at hk
        omega
    rw [List.getElem?_eq_getElem hkl] at h1
    exact ⟨k + 1, hkl, by omega, by rw [← hxk]; exact (Option.some_inj.mp h1).symm⟩

theorem getElem_mem_eraseIdx {α : Type} {l : List α} {i j : Nat}
    (hj : j < l.length) (hne : j ≠ i) (hi : i < l.length) :
    l[j] ∈ l.eraseIdx i := by
  have hlen : (l.eraseIdx i).length = l.length - 1 := List.length_eraseIdx_of_lt hi
  by_cases hlt : j < i
  · have h1 := eraseIdx_getElem?_lt l i j hlt
    rw [List.getElem?_eq_getElem hj] at h1
    exact List.getElem?_mem h1
  · have hj1 : 1 ≤ j := by omega
    have h1 := eraseIdx_getElem?_ge l i (j - 1) (by omega)
    rw [show j - 1 + 1 = j from by omega, List.getElem?_eq_getElem hj] at h1
    exact List.getElem?_mem h1

/-- Per-column effect of the unique-index cleanup loop. -/
theorem discardUniques_get (pkOpt : Option String) :
    ∀ {ucols : List String}, ucols.Nodup → ∀ (row : Row) (u : UIdx) (c : String),
      (discardUniques pkOpt ucols row u).get c =
        if c ∈ ucols ∧ pkOpt ≠ some c ∧ Row.getD row c ≠ .vNone then
          (u.get c).discard (Row.getD row c)
        else u.get c
  | [], _, row, u, c => by simp [discardUniques]
  | c0 :: rest, hnd, row, u, c => by
    have hnd' : rest.Nodup := hnd.of_cons
    have hc0 : c0 ∉ rest := (List.nodup_cons.mp hnd).1
    simp only [discardUniques, List.foldl_cons]
    have step :
        (if pkOpt ≠ some c0 then
          if Row.getD row c0 ≠ Value.vNone then u.discard c0 (Row.getD row c0) else u
        else u) = (if pkOpt ≠ some c0 ∧ Row.getD row c0 ≠ Value.vNone then
          u.discard c0 (Row.getD row c0) else u) := by
      by_cases h1 : pkOpt ≠ some c0 <;> by_cases h2 : Row.getD row c0 ≠ Value.vNone <;>
        simp [h1, h2]
    rw [show List.foldl
        (fun acc c => if pkOpt ≠ some c then
          if Row.getD row c ≠ Value.vNone then acc.discard c (Row.getD row c) else acc
        else acc) _ rest = discardUniques pkOpt rest row _ from rfl]
    rw [@discardUniques_get pkOpt rest hnd' row _ c]
    by_cases hcc0 : c = c0
    · subst hcc0
      have hnotin : ¬ (c ∈ rest ∧ pkOpt ≠ some c ∧ Row.getD row c ≠ Value.vNone) :=
        fun hcon => hc0 hcon.1
      rw [if_neg hnotin, step]
      by_cases h1 : pkOpt ≠ some c <;> by_cases h2 : Row.getD row c ≠ Value.vNone
      · simp [h1, h2, UIdx.get_discard]
      · simp [h1, h2]
      · simp [h1, h2]
      · simp [h1, h2]
    · have hgu : (if pkOpt ≠ some c0 ∧ Row.getD row c0 ≠ Value.vNone then
          u.discard c0 (Row.getD row c0) else u).get c = u.get c := by
        by_cases h1 : pkOpt ≠ some c0 ∧ Row.getD row c0 ≠ Value.vNone
        · rw [if_pos h1, UIdx.get_discard, if_neg (fun h : c0 = c => hcc0 h.symm)]
        · simp [h1]
      rw [step, hgu]
      by_cases hin : c ∈ rest
      · simp [hin, hcc0]
      · simp [hin, hcc0]

/-- Removing one row and discarding its unique value preserves per-column
uniqueness-index consistency. -/
theorem UniqInvCol_erase {c : String} {rows : List Row} {s : USet}
    (h : UniqInvCol c rows s) {i : Nat} (hi : i < rows.length) :
    UniqInvCol c (rows.eraseIdx i)
      (if Row.getD rows[i] c ≠ .vNone then s.discard (Row.getD rows[i] c) else s) := by
  have hpairs := List.pairwise_iff_getElem.mp h.rdis
  by_cases hv : Row.getD rows[i] c = Value.vNone
  · rw [if_neg (by simpa using hv)]
    refine ⟨?_, ?_, h.sdis, h.rdis.sublist (List.eraseIdx_sublist rows i)⟩
    · intro r hr hrnn
      exact h.fwd r ((List.eraseIdx_sublist rows i).subset hr) hrnn
    · intro w hw
      obtain ⟨h1, r, hr, h2⟩ := h.bwd w hw
      obtain ⟨j, hj, hjget⟩ := List.mem_iff_getElem.mp hr
      by_cases hji : j = i
      · subst hji
        rw [hjget] at hv
        rw [hv] at h2
        rw [(pyEq_vNone_iff).mp (pyEq_symm h2)] at h1
        exact absurd rfl h1
      · exact ⟨h1, rows[j], getElem_mem_eraseIdx hj hji hi, hjget ▸ h2⟩
  · rw [if_pos (by simpa using hv)]
    refine ⟨?_, ?_, USet.distinct_discard h.sdis _,
      h.rdis.sublist (List.eraseIdx_sublist rows i)⟩
    · intro r hr hrnn
      obtain ⟨j, hj, hji, hjget⟩ := mem_eraseIdx_pos hr
      rw [USet.mem_discard h.sdis]
      have hkeys : ¬ (Row.getD rows[i] c).key = (Row.getD r c).key := by
        intro hcon
        rcases Nat.lt_or_ge j i with hlt | hge
        · rcases hpairs j i hj hi hlt with hh | hh | hh
          · rw [hjget] at hh
            exact hrnn hh
          · exact hv hh
          · rw [hjget] at hh
            exact absurd (pyEq_of_key hcon.symm) (by simp [hh])
        · have hlt : i < j := by omega
          rcases hpairs i j hi hj hlt with hh | hh | hh
          · exact hv hh
          · rw [hjget] at hh
            exact hrnn hh
          · rw [hjget] at hh
            exact absurd (pyEq_of_key hcon) (by simp [hh])
      rw [if_neg hkeys]
      exact h.fwd r ((List.eraseIdx_sublist rows i).subset hr) hrnn
    · intro w hw
      have hwmem := USet.elem_discard _ hw
      obtain ⟨h1, r, hr, h2⟩ := h.bwd w hwmem
      obtain ⟨j, hj, hjget⟩ := List.mem_iff_getElem.mp hr
      by_cases hji : j = i
      · exfalso
        subst hji
        have hmem' : ((s.discard (Row.getD rows[j] c)).mem w) = true :=
          USet.mem_of_elem hw
        rw [USet.mem_discard h.sdis] at hmem'
        rw [← hjget] at h2
        rw [if_pos (pyEq_key h2)] at hmem'
        cases hmem'
      · exact ⟨h1, rows[j], getElem_mem_eraseIdx hj hji hi, hjget ▸ h2⟩

theorem deleteLoop_rows (pkOpt : Option String) (ucols : List String) :
    ∀ (ps : List (Nat × Row)) (rows : List Row) (d : DictV) (u : UIdx),
      (deleteLoop pkOpt ucols ps rows d u).1 =
        ps.foldl (fun rs p => rs.eraseIdx p.1) rows
  | [], _, _, _ => rfl
  | (i, row) :: rest, rows, d, u => by
    simp only [deleteLoop, List.foldl_cons]
    exact deleteLoop_rows pkOpt ucols rest _ _ _

theorem deleteLoop_uidx (pkOpt : Option String) (ucols : List String) :
    ∀ (ps : List (Nat × Row)) (rows : List Row) (d : DictV) (u : UIdx),
      (deleteLoop pkOpt ucols ps rows d u).2.2 =
        ps.foldl (fun uu p => discardUniques pkOpt ucols p.2 uu) u
  | [], _, _, _ => rfl
  | (i, row) :: rest, rows, d, u => by
    simp only [deleteLoop, List.foldl_cons]
    exact deleteLoop_uidx pkOpt ucols rest _ _ _

theorem deleteLoop_d_none (ucols : List String) :
    ∀ (ps : List (Nat × Row)) (rows : List Row) (d : DictV) (u : UIdx),
      (deleteLoop none ucols ps rows d u).2.1 = d
  | [], _, _, _ => rfl
  | (i, row) :: rest, rows, d, u => by
    simp only [deleteLoop]
    exact deleteLoop_d_none ucols rest _ _ _

theorem foldl_erase_sublist {α : Type} :
    ∀ (ps : List (Nat × α)) (rows : List α),
      (ps.foldl (fun rs p => rs.eraseIdx p.1) rows).Sublist rows
  | [], rows => List.Sublist.refl rows
  | (i, row) :: rest, rows => by
    simp only [List.foldl_cons]
    exact (foldl_erase_sublist rest _).trans (List.eraseIdx_sublist rows i)

/-- Per-column uniqueness consistency is preserved through the whole
deletion loop. -/
theorem foldl_erase_uniq {c : String} {pkOpt : Option String} {ucols : List String}
    (hnd : ucols.Nodup) (hcu : c ∈ ucols) (hcpk : pkOpt ≠ some c) :
    ∀ (ps : List (Nat × Row)) (rows : List Row) (u : UIdx),
      (∀ p ∈ ps, rows[p.1]? = some p.2) →
      List.Pairwise (fun p q => q.1 < p.1) ps →
      UniqInvCol c rows (u.get c) →
      UniqInvCol c (ps.foldl (fun rs p => rs.eraseIdx p.1) rows)
        ((ps.foldl (fun uu p => discardUniques pkOpt ucols p.2 uu) u).get c)
  | [], rows, u, _, _, hui => hui
  | (i, row) :: rest, rows, u, hps, hdesc, hui => by
    simp only [List.foldl_cons]
    have hgi : rows[i]? = some row := hps (i, row) (List.mem_cons_self _ _)
    have hi : i < rows.length := by
      by_contra hcon
      rw [List.getElem?_eq_none (by omega)] at hgi
      cases hgi
    have hrow : rows[i] = row := by
      rw [List.getElem?_eq_getElem hi] at hgi
      exact Option.some_inj.mp hgi
    have hstep := UniqInvCol_erase hui hi
    rw [hrow] at hstep
    have hdg : (discardUniques pkOpt ucols row u).get c =
        if Row.getD row c ≠ Value.vNone then (u.get c).discard (Row.getD row c)
        else u.get c := by
      rw [discardUniques_get pkOpt hnd row u c]
      by_cases h2 : Row.getD row c ≠ Value.vNone
      · rw [if_pos ⟨hcu, hcpk, h2⟩, if_pos h2]
      · rw [if_neg (fun hcon => h2 hcon.2.2), if_neg h2]
    have hstep' : UniqInvCol c (rows.eraseIdx i)
        ((discardUniques pkOpt ucols row u).get c) := by
      rw [hdg]
      exact hstep
    have hrel := (List.pairwise_cons.mp hdesc).1
    refine foldl_erase_uniq hnd hcu hcpk rest (rows.eraseIdx i)
      (discardUniques pkOpt ucols row u) ?_ (List.pairwise_cons.mp hdesc).2 hstep'
    intro q hq
    have hqlt : q.1 < i := hrel q hq
    rw [eraseIdx_getElem?_lt rows i q.1 hqlt]
    exact hps q (List.mem_cons_of_mem _ hq)

theorem pyEq_false_symm {a b : Value} (h : pyEq a b = false) : pyEq b a = false := by
  rcases hc : pyEq b a
  · rfl
  · rw [pyEq_symm hc] at h
    cases h

theorem lookup_foldl_untouched {pk : String} :
    ∀ (ps : List (Nat × Row)) (d : DictV) (v : Value),
      (∀ p ∈ ps, pyEq (Row.getD p.2 pk) v = false) →
      (ps.foldl (fun dd p => dd.set (Row.getD p.2 pk) p.1) d).lookup v = d.lookup v
  | [], _, _, _ => rfl
  | (n, r) :: rest, d, v, h => by
    simp only [List.foldl_cons]
    rw [lookup_foldl_untouched rest _ v (fun p hp => h p (List.mem_cons_of_mem _ hp))]
    rw [DictV.lookup_set, if_neg]
    intro hcon
    exact absurd (pyEq_of_key hcon) (by simp [h (n, r) (List.mem_cons_self _ _)])

theorem keysDistinct_foldl {pk : String} :
    ∀ (ps : List (Nat × Row)) (d : DictV), DictV.keysDistinct d = true →
      DictV.keysDistinct
        (ps.foldl (fun dd p => dd.set (Row.getD p.2 pk) p.1) d) = true
  | [], _, hd => hd
  | (n, r) :: rest, d, hd => by
    simp only [List.foldl_cons]
    exact keysDistinct_foldl rest _ (DictV.keysDistinct_set hd _ _)

/-- The index rebuild, generalized over the numbering offset and the
accumulated dictionary. -/
theorem rebuild_go {pk : String} :
    ∀ (rows : List Row) (n : Nat) (d : DictV),
      DictV.keysDistinct d = true →
      (∀ p ∈ d, ∀ r ∈ rows, pyEq p.1 (Row.getD r pk) = false) →
      List.Pairwise (fun r1 r2 => pyEq (Row.getD r1 pk) (Row.getD r2 pk) = false) rows →
      (∀ i (h : i < rows.length),
        ((rows.enumFrom n).foldl (fun dd p => dd.set (Row.getD p.2 pk) p.1) d).lookup
          (Row.getD (rows.get ⟨i, h⟩) pk) = some (n + i)) ∧
      (∀ p ∈ (rows.enumFrom n).foldl (fun dd p => dd.set (Row.getD p.2 pk) p.1) d,
        p ∈ d ∨ ∃ i, ∃ h : i < rows.length,
          pyEq (Row.getD (rows.get ⟨i, h⟩) pk) p.1 = true ∧ p.2 = n + i)
  | [], n, d, hd, _, _ => ⟨by simp, fun p hp => Or.inl (by simpa using hp)⟩
  | r0 :: rest, n, d, hd, hdr, hpw => by
    simp only [List.enumFrom, List.foldl_cons]
    have hd' : DictV.keysDistinct (d.set (Row.getD r0 pk) n) = true :=
      DictV.keysDistinct_set hd _ _
    have hhead := (List.pairwise_cons.mp hpw).1
    have hdr' : ∀ p ∈ d.set (Row.getD r0 pk) n, ∀ r ∈ rest,
        pyEq p.1 (Row.getD r pk) = false := by
      intro p hp r hr
      rcases DictV.mem_set hd (Row.getD r0 pk) n hp with ⟨hpd, _⟩ | ⟨hpe, _⟩
      · exact hdr p hpd r (List.mem_cons_of_mem _ hr)
      · rcases hc : pyEq p.1 (Row.getD r pk)
        · rfl
        · exact absurd (pyEq_trans (pyEq_symm hpe) hc) (by simp [hhead r hr])
    obtain ⟨ih2, ih3⟩ := rebuild_go rest (n + 1) (d.set (Row.getD r0 pk) n) hd'
      hdr' (List.pairwise_cons.mp hpw).2
    constructor
    · intro i hi
      cases i with
      | zero =>
        have hv0 : (Row.getD ((r0 :: rest).get ⟨0, hi⟩) pk) = Row.getD r0 pk := rfl
        rw [hv0]
        rw [lookup_foldl_untouched (rest.enumFrom (n + 1)) _ _ ?_]
        · rw [DictV.lookup_set, if_pos rfl]
          simp
        · intro p hp
          obtain ⟨hle, hlt, heqp⟩ := List.mem_enumFrom hp
          have hpmem : p.2 ∈ rest := by
            rw [heqp]
            exact List.getElem_mem _
          exact pyEq_false_symm (hhead p.2 hpmem)
      | succ i =>
        have hgi : (r0 :: rest).get ⟨i + 1, hi⟩ = rest.get ⟨i, by simpa using hi⟩ := by
          simp
        rw [hgi]
        rw [ih2 i (by simpa using hi)]
        congr 1
        omega
    · intro p hp
      rcases ih3 p hp with hin | ⟨i, h, heq, hp2⟩
      · rcases DictV.mem_set hd (Row.getD r0 pk) n hin with ⟨hpd, _⟩ | ⟨hpe, hpn⟩
        · exact Or.inl hpd
        · exact Or.inr ⟨0, by simp, pyEq_symm hpe, by omega⟩
      · refine Or.inr ⟨i + 1, by simpa using h, ?_, by omega⟩
        have hgi : (r0 :: rest).get ⟨i + 1, by simpa using h⟩ = rest.get ⟨i, h⟩ := by
          simp
        rw [hgi]
        exact heq

/-- The rebuilt primary-key index is exactly consistent with any row
sequence whose keys are pairwise distinct. -/
theorem rebuild_PkInvAt {pk : String} {rows : List Row}
    (hpw : List.Pairwise
      (fun r1 r2 => pyEq (Row.getD r1 pk) (Row.getD r2 pk) = false) rows) :
    PkInvAt pk rows (rebuildPkIndex pk rows) := by
  obtain ⟨h2, h3⟩ := rebuild_go rows 0 [] rfl (by simp) hpw
  refine ⟨?_, ?_, keysDistinct_foldl (rows.enumFrom 0) [] rfl⟩
  · intro i hi
    have := h2 i hi
    simpa using this
  · intro p hp
    rcases h3 p hp with hin | ⟨i, h, heq, hp2⟩
    · simp at hin
    · have hi2 : p.2 = i := by omega
      subst hi2
      exact ⟨h, heq⟩

/-- Positional pairwise distinctness of primary keys, as a `Pairwise`. -/
theorem pk_pairwise_of_inv {pk : String} {rows : List Row} {d : DictV}
    (hp : PkInvAt pk rows d) :
    List.Pairwise (fun r1 r2 => pyEq (Row.getD r1 pk) (Row.getD r2 pk) = false) rows := by
  rw [List.pairwise_iff_getElem]
  intro i j hi hj hij
  have := hp.rowsDistinct hi hj (by omega)
  simpa using this

theorem pairwise_fst_lt_enumFrom {α : Type} :
    ∀ (l : List α) (n : Nat),
      List.Pairwise (fun p q : Nat × α => p.1 < q.1) (l.enumFrom n)
  | [], _ => List.Pairwise.nil
  | a :: as, n => by
    simp only [List.enumFrom]
    refine List.Pairwise.cons ?_ (pairwise_fst_lt_enumFrom as (n + 1))
    intro q hq
    have := List.le_fst_of_mem_enumFrom hq
    omega

theorem matched_reverse_props (rows : List Row) (condition : Row → Bool) :
    (∀ p ∈ (rows.enum.filter (fun p => condition p.2)).reverse,
      rows[p.1]? = some p.2) ∧
    List.Pairwise (fun p q : Nat × Row => q.1 < p.1)
      (rows.enum.filter (fun p => condition p.2)).reverse := by
  constructor
  · intro p hp
    rw [List.mem_reverse] at hp
    exact List.mem_enum_iff_getElem?.mp (List.mem_filter.mp hp).1
  · rw [List.pairwise_reverse]
    exact (pairwise_fst_lt_enumFrom rows 0).sublist (List.filter_sublist _)

theorem delete_rows_eq (t : Table) (condition : Row → Bool) :
    (t.delete condition).1.rows =
      ((t.rows.enum.filter (fun p => condition p.2)).reverse).foldl
        (fun rs p => rs.eraseIdx p.1) t.rows :=
  deleteLoop_rows _ _ _ _ _ _

theorem delete_uidx_eq (t : Table) (condition : Row → Bool) :
    (t.delete condition).1.unique_indexes =
      ((t.rows.enum.filter (fun p => condition p.2)).reverse).foldl
        (fun uu p => discardUniques t.primary_key t.unique_columns p.2 uu)
        t.unique_indexes :=
  deleteLoop_uidx _ _ _ _ _ _

theorem delete_pkidx_none (t : Table) (condition : Row → Bool)
    (h : t.primary_key = none) :
    (t.delete condition).1.primary_key_index = t.primary_key_index := by
  simp only [Table.delete, h]
  exact deleteLoop_d_none _ _ _ _ _

theorem delete_pkidx_some (t : Table) (condition : Row → Bool) {pk : String}
    (h : t.primary_key = some pk) :
    (t.delete condition).1.primary_key_index =
      rebuildPkIndex pk
        (((t.rows.enum.filter (fun p => condition p.2)).reverse).foldl
          (fun rs p => rs.eraseIdx p.1) t.rows) := by
  simp only [Table.delete, h]
  rw [deleteLoop_rows]

/-- `delete` preserves the invariant. -/
theorem Inv_delete {t : Table} (hinv : Inv t) (condition : Row → Bool) :
    Inv (t.delete condition).1 := by
  obtain ⟨hmatch, hdesc⟩ := matched_reverse_props t.rows condition
  have hrows := delete_rows_eq t condition
  have huidx := delete_uidx_eq t condition
  have hsub : (t.delete condition).1.rows.Sublist t.rows := by
    rw [hrows]
    exact foldl_erase_sublist _ _
  refine ⟨?_, ?_, ?_, hinv.nodup⟩
  · intro r hr c hc
    exact hinv.wf r (hsub.subset hr) c hc
  · rcases hpko : t.primary_key with _ | pk
    · refine PkInv_of_none hpko ?_
      rw [delete_pkidx_none t condition hpko]
      exact pkIndex_empty_of_none hpko hinv.pki
    · refine PkInv_of_some hpko ?_
      rw [delete_pkidx_some t condition hpko, hrows]
      refine rebuild_PkInvAt ?_
      exact (pk_pairwise_of_inv (PkInvAt_of_PkInv hpko hinv.pki)).sublist
        (foldl_erase_sublist _ _)
  · intro c hc hcpk
    have hc' : c ∈ t.unique_columns := hc
    have hcpk' : t.primary_key ≠ some c := hcpk
    have hbase := hinv.uniq c hc' hcpk'
    have := foldl_erase_uniq (unique_columns_nodup hinv.nodup) hc' hcpk'
      ((t.rows.enum.filter (fun p => condition p.2)).reverse) t.rows
      t.unique_indexes hmatch hdesc hbase
    rw [← hrows, ← huidx] at this
    exact this

/-- The state transition of a successful `delete_by_primary_key`. -/
theorem delete_by_pk_eq (t : Table) (v : Value) {pk : String}
    (hpk : t.primary_key = some pk) {i : Nat}
    (hlk : t.primary_key_index.lookup v = some i) (hi : i < t.rows.length) :
    t.delete_by_primary_key v =
      (⟨t.name, t.columns, t.rows.eraseIdx i, rebuildPkIndex pk (t.rows.eraseIdx i),
        discardUniques t.primary_key t.unique_columns t.rows[i] t.unique_indexes⟩,
        .ok true) := by
  unfold Table.delete_by_primary_key
  rw [hpk, hlk]
  simp only [List.getElem?_eq_getElem hi]

/-- `delete_by_primary_key` preserves the invariant. -/
theorem Inv_delete_by_primary_key {t : Table} (hinv : Inv t) (v : Value) :
    Inv (t.delete_by_primary_key v).1 := by
  rcases hpko : t.primary_key with _ | pk
  · unfold Table.delete_by_primary_key
    rw [hpko]
    exact hinv
  · rcases hlk : t.primary_key_index.lookup v with _ | i
    · unfold Table.delete_by_primary_key
      rw [hpko, hlk]
      exact hinv
    · have hpinv := PkInvAt_of_PkInv hpko hinv.pki
      obtain ⟨hi, heq⟩ := hpinv.lookup_some_iff.mp hlk
      rw [delete_by_pk_eq t v hpko hlk hi]
      refine ⟨?_, ?_, ?_, hinv.nodup⟩
      · intro r hr c hc
        exact hinv.wf r ((List.eraseIdx_sublist _ _).subset hr) c hc
      · refine PkInv_of_some hpko ?_
        refine rebuild_PkInvAt ?_
        exact (pk_pairwise_of_inv hpinv).sublist (List.eraseIdx_sublist _ _)
      · intro c hc hcpk
        have hbase := hinv.uniq c hc hcpk
        have hstep := UniqInvCol_erase hbase hi
        have hdg : (discardUniques t.primary_key t.unique_columns t.rows[i]
            t.unique_indexes).get c =
            if Row.getD t.rows[i] c ≠ Value.vNone then
              (t.unique_indexes.get c).discard (Row.getD t.rows[i] c)
            else t.unique_indexes.get c := by
          rw [discardUniques_get t.primary_key (unique_columns_nodup hinv.nodup)]
          by_cases h2 : Row.getD t.rows[i] c ≠ Value.vNone
          · rw [if_pos ⟨hc, hcpk, h2⟩, if_pos h2]
          · rw [if_neg (fun hcon => h2 hcon.2.2), if_neg h2]
        rw [← hdg] at hstep
        exact hstep

/-! ### Invariant preservation: `update` (successful calls) -/
theorem Row.hasKey_update (u : Row) :
    ∀ (r : Row) (k : String), Row.hasKey (Row.update r u) k = (r.hasKey k || u.hasKey k) := by
  induction u with
  | nil => intro r k; simp [Row.update]
  | cons p rest ih =>
    intro r k
    obtain ⟨k0, v0⟩ := p
    show Row.hasKey (Row.update (r.set k0 v0) rest) k = _
    rw [ih (r.set k0 v0) k, Row.hasKey_set]
    by_cases h : k0 = k <;> simp [h, Bool.or_comm, Bool.or_left_comm]

theorem Row.hasKey_iff_mem_keys {r : Row} {k : String} :
    Row.hasKey r k = true ↔ k ∈ r.map Prod.fst := by
  induction r with
  | nil => simp
  | cons p rest ih =>
    obtain ⟨k0, v0⟩ := p
    rw [Row.hasKey_cons]
    by_cases h : k0 = k
    · simp [h]
    · have h' : ¬ k = k0 := fun hc => h hc.symm
      simp [h, h', ih]

theorem Row.getD_update (u : Row) (hnd : (u.map Prod.fst).Nodup) :
    ∀ (r : Row) (k : String), Row.getD (Row.update r u) k =
      if u.hasKey k then Row.getD u k else Row.getD r k := by
  induction u with
  | nil => intro r k; simp [Row.update]
  | cons p rest ih =>
    intro r k
    obtain ⟨k0, v0⟩ := p
    simp only [List.map_cons, List.nodup_cons] at hnd
    show Row.getD (Row.update (r.set k0 v0) rest) k = _
    rw [ih hnd.2 (r.set k0 v0) k, Row.getD_set, Row.hasKey_cons]
    by_cases h : k0 = k
    · subst h
      have hrk : Row.hasKey rest k0 = false := by
        rcases hc : Row.hasKey rest k0
        · rfl
        · exact absurd (Row.hasKey_iff_mem_keys.mp hc) hnd.1
      simp [hrk, Row.getD, Row.get?_cons]
    · by_cases hr : Row.hasKey rest k
      · simp [hr, h, Row.getD, Row.get?_cons]
      · simp [hr, h]

theorem mem_del_not_class {d : DictV} (hd : DictV.keysDistinct d = true) {v : Value}
    {p : Value × Nat} (hp : p ∈ DictV.del d v) : pyEq p.1 v = false := by
  induction d with
  | nil => simp [DictV.del] at hp
  | cons q rest ih =>
    obtain ⟨u, m⟩ := q
    rcases DictV.keysDistinct_cons.mp hd with ⟨hdis, hrest⟩
    simp only [DictV.del] at hp
    rcases hu : pyEq u v <;> simp only [hu] at hp
    · simp only [Bool.false_eq_true, if_false, List.mem_cons] at hp
      rcases hp with hp | hp
      · subst hp
        exact hu
      · exact ih hrest hp
    · simp only [if_true] at hp
      rcases hc : pyEq p.1 v
      · rfl
      · exact absurd (pyEq_trans hu (pyEq_symm hc)) (by simp [hdis p hp])

theorem elem_discard_not_class {s : USet} (hs : USet.distinct s = true) {v w : Value}
    (hw : w ∈ USet.discard s v) : pyEq w v = false := by
  induction s with
  | nil => simp [USet.discard] at hw
  | cons u rest ih =>
    rcases USet.distinct_cons.mp hs with ⟨hdis, hrest⟩
    simp only [USet.discard] at hw
    rcases hu : pyEq u v <;> simp only [hu] at hw
    · simp only [Bool.false_eq_true, if_false, List.mem_cons] at hw
      rcases hw with hw | hw
      · subst hw
        exact hu
      · exact ih hrest hw
    · simp only [if_true] at hw
      rcases hc : pyEq w v
      · rfl
      · exact absurd (pyEq_trans hu (pyEq_symm hc)) (by simp [hdis w hw])

/-- Per-column characterization of a *successful* run of the update body's
unique-constraint loop: the outcome for each column, and the fact that the
collision check it performed was against the pre-loop set. -/
theorem updateUniqueLoop_ok {pkOpt : Option String} {updates old_row new_row : Row} :
    ∀ (ucols : List String), ucols.Nodup → ∀ (u : UIdx) {u' : UIdx},
      updateUniqueLoop pkOpt updates old_row new_row ucols u = (u', .ok ()) →
      ∀ c,
        (u'.get c =
          if c ∈ ucols ∧ updates.hasKey c = true ∧ pkOpt ≠ some c ∧
              pyEq (Row.getD old_row c) (Row.getD new_row c) = false then
            (if Row.getD new_row c ≠ Value.vNone then
              (if Row.getD old_row c ≠ Value.vNone then
                (u.get c).discard (Row.getD old_row c) else u.get c).add
                (Row.getD new_row c)
            else
              (if Row.getD old_row c ≠ Value.vNone then
                (u.get c).discard (Row.getD old_row c) else u.get c))
          else u.get c) ∧
        (c ∈ ucols → updates.hasKey c = true → pkOpt ≠ some c →
          pyEq (Row.getD old_row c) (Row.getD new_row c) = false →
          Row.getD new_row c ≠ Value.vNone →
          (u.get c).mem (Row.getD new_row c) = false)
  | [], _, u, u', h, c => by
    simp only [updateUniqueLoop] at h
    cases h
    simp
  | c0 :: rest, hnd, u, u', h, c => by
    have hnd' : rest.Nodup := hnd.of_cons
    have hc0 : c0 ∉ rest := (List.nodup_cons.mp hnd).1
    simp only [updateUniqueLoop] at h
    by_cases hcond : updates.hasKey c0 = true ∧ pkOpt ≠ some c0
    · rw [if_pos hcond] at h
      by_cases hch : pyEq (Row.getD old_row c0) (Row.getD new_row c0) = false
      · rw [if_pos (by simp [hch])] at h
        by_cases hcol : Row.getD new_row c0 ≠ Value.vNone ∧
            (u.get c0).mem (Row.getD new_row c0) = true
        · rw [if_pos hcol] at h
          cases h
        · rw [if_neg hcol] at h
          obtain ⟨ih1, ih2⟩ := updateUniqueLoop_ok rest hnd' _ h c
          by_cases hcc0 : c = c0
          · subst hcc0
            constructor
            · rw [ih1]
              by_cases h1 : Row.getD old_row c ≠ Value.vNone <;>
                by_cases h2 : Row.getD new_row c ≠ Value.vNone <;>
                  simp [h1, h2, hc0, hcond.1, hcond.2, hch, UIdx.get_add,
                    UIdx.get_discard]
            · intro _ _ _ _ h5
              rcases hm : (u.get c).mem (Row.getD new_row c)
              · rfl
              · exact absurd ⟨h5, hm⟩ hcol
          · have hgu :
                (if Row.getD new_row c0 ≠ Value.vNone then
                  UIdx.add (if Row.getD old_row c0 ≠ Value.vNone then
                    u.discard c0 (Row.getD old_row c0) else u) c0 (Row.getD new_row c0)
                else (if Row.getD old_row c0 ≠ Value.vNone then
                  u.discard c0 (Row.getD old_row c0) else u)).get c = u.get c := by
              have hne : ¬ c0 = c := fun hcon => hcc0 hcon.symm
              by_cases h1 : Row.getD old_row c0 ≠ Value.vNone <;>
                by_cases h2 : Row.getD new_row c0 ≠ Value.vNone <;>
                  simp [h1, h2, hne, UIdx.get_add, UIdx.get_discard]
            constructor
            · rw [ih1, hgu]
              simp [List.mem_cons, hcc0]
            · intro hcin h2 h3 h4 h5
              have hcin' : c ∈ rest := by
                rcases List.mem_cons.mp hcin with hh | hh
                · exact absurd hh hcc0
                · exact hh
              have := ih2 hcin' h2 h3 h4 h5
              rw [hgu] at this
              exact this
      · rw [if_neg (by simp [hch])] at h
        obtain ⟨ih1, ih2⟩ := updateUniqueLoop_ok rest hnd' _ h c
        by_cases hcc0 : c = c0
        · subst hcc0
          refine ⟨?_, ?_⟩
          · rw [ih1, if_neg (fun hcon => hc0 hcon.1), if_neg (fun hcon => hch hcon.2.2.2)]
          · intro _ _ _ h4 _
            exact absurd h4 hch
        · refine ⟨?_, ?_⟩
          · rw [ih1]
            simp [List.mem_cons, hcc0]
          · intro hcin h2 h3 h4 h5
            have hcin' : c ∈ rest := by
              rcases List.mem_cons.mp hcin with hh | hh
              · exact absurd hh hcc0
              · exact hh
            exact ih2 hcin' h2 h3 h4 h5
    · rw [if_neg hcond] at h
      obtain ⟨ih1, ih2⟩ := updateUniqueLoop_ok rest hnd' _ h c
      by_cases hcc0 : c = c0
      · subst hcc0
        refine ⟨?_, ?_⟩
        · rw [ih1, if_neg (fun hcon => hc0 hcon.1),
            if_neg (fun hcon => hcond ⟨hcon.2.1, hcon.2.2.1⟩)]
        · intro _ h2 h3 _ _
          exact absurd ⟨h2, h3⟩ hcond
      · refine ⟨?_, ?_⟩
        · rw [ih1]
          simp [List.mem_cons, hcc0]
        · intro hcin h2 h3 h4 h5
          have hcin' : c ∈ rest := by
            rcases List.mem_cons.mp hcin with hh | hh
            · exact absurd hh hcc0
            · exact hh
          exact ih2 hcin' h2 h3 h4 h5

theorem getD_set_getElem {rows : List Row} {i j : Nat} (hj : j < rows.length)
    (hij : j ≠ i) {new_row : Row} (hj2 : j < (rows.set i new_row).length) :
    (rows.set i new_row)[j] = rows[j] :=
  List.getElem_set_ne (fun h => hij h.symm) _

theorem set_get_self {rows : List Row} {i : Nat} (_hi : i < rows.length) (x : Row)
    (h2 : i < (rows.set i x).length) : (rows.set i x).get ⟨i, h2⟩ = x := by
  rw [List.get_eq_getElem]
  exact List.getElem_set_self _

theorem set_get_other {rows : List Row} {i j : Nat} (hj : j < rows.length) (hij : j ≠ i)
    (x : Row) (h2 : j < (rows.set i x).length) : (rows.set i x).get ⟨j, h2⟩ = rows[j] := by
  rw [List.get_eq_getElem]
  exact List.getElem_set_ne (fun h => hij h.symm) _

theorem set_mem_self {rows : List Row} {i : Nat} (hi : i < rows.length) (x : Row) :
    x ∈ rows.set i x := by
  have h2 : i < (rows.set i x).length := by simpa using hi
  have hm := List.get_mem (rows.set i x) i h2
  rw [set_get_self hi x h2] at hm
  exact hm

theorem set_mem_other {rows : List Row} {i j : Nat} (hj : j < rows.length) (hij : j ≠ i)
    (x : Row) : rows[j] ∈ rows.set i x := by
  have h2 : j < (rows.set i x).length := by simpa using hj
  have hm := List.get_mem (rows.set i x) j h2
  rw [set_get_other hj hij x h2] at hm
  exact hm

/-- Positional membership in a `set`-modified list. -/
theorem mem_set_pos {rows : List Row} {i : Nat} {x r : Row} (hr : r ∈ rows.set i x) :
    (i < rows.length ∧ r = x) ∨ ∃ j, ∃ hj : j < rows.length, j ≠ i ∧ rows[j] = r := by
  obtain ⟨j, hj, hjget⟩ := List.mem_iff_getElem.mp hr
  have hj' : j < rows.length := by simpa using hj
  by_cases hji : j = i
  · subst hji
    rw [List.getElem_set_self _] at hjget
    exact Or.inl ⟨hj', hjget.symm⟩
  · rw [getD_set_getElem hj' hji hj] at hjget
    exact Or.inr ⟨j, hj', hji, hjget⟩

/-- Replacing a row by one whose primary key compares equal leaves the
primary-key index consistent. -/
theorem PkInvAt_set_classEq {pk : String} {rows : List Row} {d : DictV}
    (hp : PkInvAt pk rows d) {i : Nat} (hi : i < rows.length) {new_row : Row}
    (hclass : pyEq (Row.getD rows[i] pk) (Row.getD new_row pk) = true) :
    PkInvAt pk (rows.set i new_row) d := by
  refine ⟨?_, ?_, hp.dis⟩
  · intro j hj
    have hj' : j < rows.length := by simpa using hj
    by_cases hij : j = i
    · subst hij
      rw [set_get_self hj' new_row hj]
      rw [← DictV.lookup_congr d (pyEq_key hclass)]
      have := hp.fwd j hj'
      have hg : rows.get ⟨j, hj'⟩ = rows[j] := by simp
      rw [hg] at this
      exact this
    · rw [set_get_other hj' hij new_row hj]
      have := hp.fwd j hj'
      have hg : rows.get ⟨j, hj'⟩ = rows[j] := by simp
      rw [hg] at this
      exact this
  · intro p hpmem
    obtain ⟨hlt, heq⟩ := hp.bwd p hpmem
    have hg : rows.get ⟨p.2, hlt⟩ = rows[p.2] := by simp
    rw [hg] at heq
    by_cases hij : p.2 = i
    · subst hij
      refine ⟨by simpa using hlt, ?_⟩
      rw [set_get_self hlt new_row _]
      exact pyEq_trans (pyEq_symm hclass) heq
    · refine ⟨by simpa using hlt, ?_⟩
      rw [set_get_other hlt hij new_row _]
      exact heq

/-- Replacing a row and moving its primary-key index entry (remove old
key, insert new key at the same position) keeps the index consistent,
provided the new key either compares equal to the old one or is free. -/
theorem PkInvAt_set_move {pk : String} {rows : List Row} {d : DictV}
    (hp : PkInvAt pk rows d) {i : Nat} (hi : i < rows.length) {new_row : Row}
    (hcond : pyEq (Row.getD new_row pk) (Row.getD rows[i] pk) = true ∨
      d.lookup (Row.getD new_row pk) = none) :
    PkInvAt pk (rows.set i new_row)
      ((d.del (Row.getD rows[i] pk)).set (Row.getD new_row pk) i) := by
  have hfwd' : ∀ j (hj : j < rows.length), d.lookup (Row.getD rows[j] pk) = some j := by
    intro j hj
    have := hp.fwd j hj
    have hg : rows.get ⟨j, hj⟩ = rows[j] := by simp
    rw [hg] at this
    exact this
  have hdist : ∀ j (hj : j < rows.length), j ≠ i →
      pyEq (Row.getD rows[i] pk) (Row.getD rows[j] pk) = false := by
    intro j hj hij
    have := hp.rowsDistinct hi hj (fun h => hij h.symm)
    simpa using this
  have hnewkey : ∀ j (hj : j < rows.length), j ≠ i →
      ¬ (Row.getD new_row pk).key = (Row.getD rows[j] pk).key := by
    intro j hj hij hcon
    rcases hcond with hcl | hfree
    · have h1 : pyEq (Row.getD rows[i] pk) (Row.getD rows[j] pk) = true :=
        pyEq_of_key ((pyEq_key hcl).symm.trans hcon)
      rw [hdist j hj hij] at h1
      cases h1
    · have := hfwd' j hj
      rw [← DictV.lookup_congr d hcon] at this
      rw [hfree] at this
      cases this
  refine ⟨?_, ?_, DictV.keysDistinct_set (DictV.keysDistinct_del hp.dis _) _ _⟩
  · intro j hj
    have hj' : j < rows.length := by simpa using hj
    by_cases hij : j = i
    · subst hij
      rw [set_get_self hj' new_row hj, DictV.lookup_set, if_pos rfl]
    · rw [set_get_other hj' hij new_row hj, DictV.lookup_set,
        if_neg (hnewkey j hj' hij), DictV.lookup_del hp.dis _ _, if_neg]
      · exact hfwd' j hj'
      · intro hcon
        have h1 : pyEq (Row.getD rows[i] pk) (Row.getD rows[j] pk) = true :=
          pyEq_of_key hcon
        rw [hdist j hj' hij] at h1
        cases h1
  · intro p hpmem
    rcases DictV.mem_set (DictV.keysDistinct_del hp.dis _) _ i hpmem with
      ⟨hpd, hpne⟩ | ⟨hpe, hp2⟩
    · have hpd' := DictV.mem_del _ hpd
      obtain ⟨hlt, heq⟩ := hp.bwd p hpd'
      have hg : rows.get ⟨p.2, hlt⟩ = rows[p.2] := by simp
      rw [hg] at heq
      have hpnotold : pyEq p.1 (Row.getD rows[i] pk) = false :=
        mem_del_not_class hp.dis hpd
      have hp2i : p.2 ≠ i := by
        intro hcon
        subst hcon
        rw [pyEq_symm heq] at hpnotold
        cases hpnotold
      refine ⟨by simpa using hlt, ?_⟩
      rw [set_get_other hlt hp2i new_row _]
      exact heq
    · subst hp2
      refine ⟨by simpa using hi, ?_⟩
      rw [set_get_self hi new_row _]
      exact pyEq_symm hpe

/-- Replacing a row by one whose value in unique column `c` compares
equal leaves that column's uniqueness index consistent. -/
theorem UniqInvCol_set_classEq {c : String} {rows : List Row} {s : USet}
    (h : UniqInvCol c rows s) {i : Nat} (hi : i < rows.length) {new_row : Row}
    (hclass : pyEq (Row.getD rows[i] c) (Row.getD new_row c) = true) :
    UniqInvCol c (rows.set i new_row) s := by
  have hpairs := List.pairwise_iff_getElem.mp h.rdis
  refine ⟨?_, ?_, h.sdis, ?_⟩
  · intro r hr hrnn
    rcases mem_set_pos hr with ⟨_, hr⟩ | ⟨j, hj, hji, hjget⟩
    · subst hr
      have hmo : s.mem (Row.getD rows[i] c) = true := by
        refine h.fwd rows[i] (List.getElem_mem hi) ?_
        intro hcon
        rw [hcon] at hclass
        rw [pyEq_vNone_iff.mp (pyEq_symm hclass)] at hrnn
        exact hrnn rfl
      rw [← USet.mem_congr s (pyEq_key hclass)]
      exact hmo
    · subst hjget
      exact h.fwd rows[j] (List.getElem_mem hj) hrnn
  · intro w hw
    obtain ⟨h1, r, hr, h2⟩ := h.bwd w hw
    obtain ⟨j, hj, hjget⟩ := List.mem_iff_getElem.mp hr
    by_cases hij : j = i
    · subst hij
      refine ⟨h1, new_row, set_mem_self hj new_row, ?_⟩
      rw [← hjget] at h2
      exact pyEq_trans (pyEq_symm hclass) h2
    · exact ⟨h1, rows[j], set_mem_other hj hij new_row, hjget ▸ h2⟩
  · rw [List.pairwise_iff_getElem]
    intro a b ha hb hab
    have ha' : a < rows.length := by simpa using ha
    have hb' : b < rows.length := by simpa using hb
    by_cases hai : a = i <;> by_cases hbi : b = i
    · omega
    · subst hai
      rw [List.getElem_set_self _, getD_set_getElem hb' hbi hb]
      rcases hpairs a b ha' hb' hab with hx | hx | hx
      · refine Or.inl ?_
        rw [hx] at hclass
        exact pyEq_vNone_iff.mp (pyEq_symm hclass)
      · exact Or.inr (Or.inl hx)
      · refine Or.inr (Or.inr ?_)
        rcases hc2 : pyEq (Row.getD new_row c) (Row.getD rows[b] c)
        · rfl
        · rw [pyEq_trans hclass hc2] at hx
          cases hx
    · subst hbi
      rw [List.getElem_set_self _, getD_set_getElem ha' hai ha]
      rcases hpairs a b ha' hb' hab with hx | hx | hx
      · exact Or.inl hx
      · refine Or.inr (Or.inl ?_)
        rw [hx] at hclass
        exact pyEq_vNone_iff.mp (pyEq_symm hclass)
      · refine Or.inr (Or.inr ?_)
        rcases hc2 : pyEq (Row.getD rows[a] c) (Row.getD new_row c)
        · rfl
        · rw [pyEq_trans hc2 (pyEq_symm hclass)] at hx
          cases hx
    · rw [getD_set_getElem ha' hai ha, getD_set_getElem hb' hbi hb]
      exact hpairs a b ha' hb' hab

/-- Replacing a row whose value in unique column `c` changes class, while
discarding the old value and adding the new one, keeps that column's
uniqueness index consistent, provided the new value was not already
used. -/
theorem UniqInvCol_set_classChange {c : String} {rows : List Row} {s : USet}
    (h : UniqInvCol c rows s) {i : Nat} (hi : i < rows.length) {new_row : Row}
    (hch : pyEq (Row.getD rows[i] c) (Row.getD new_row c) = false)
    (hcol : Row.getD new_row c ≠ .vNone → s.mem (Row.getD new_row c) = false) :
    UniqInvCol c (rows.set i new_row)
      (if Row.getD new_row c ≠ .vNone then
        (if Row.getD rows[i] c ≠ .vNone then s.discard (Row.getD rows[i] c) else s).add
          (Row.getD new_row c)
      else (if Row.getD rows[i] c ≠ .vNone then s.discard (Row.getD rows[i] c) else s)) := by
  have hpairs := List.pairwise_iff_getElem.mp h.rdis
  have hs1dis : USet.distinct
      (if Row.getD rows[i] c ≠ .vNone then s.discard (Row.getD rows[i] c) else s) = true := by
    by_cases h1 : Row.getD rows[i] c ≠ Value.vNone
    · rw [if_pos h1]
      exact USet.distinct_discard h.sdis _
    · rw [if_neg h1]
      exact h.sdis
  have hs1memother : ∀ j (hj : j < rows.length), j ≠ i →
      Row.getD rows[j] c ≠ .vNone →
      USet.mem (if Row.getD rows[i] c ≠ .vNone then
        s.discard (Row.getD rows[i] c) else s) (Row.getD rows[j] c) = true := by
    intro j hj hij hnn
    have hmo := h.fwd rows[j] (List.getElem_mem hj) hnn
    by_cases h1 : Row.getD rows[i] c ≠ Value.vNone
    · rw [if_pos h1, USet.mem_discard h.sdis, if_neg]
      · exact hmo
      · intro hcon
        have base : Row.getD rows[i] c = Value.vNone ∨ Row.getD rows[j] c = Value.vNone ∨
            pyEq (Row.getD rows[i] c) (Row.getD rows[j] c) = false := by
          rcases Nat.lt_or_ge i j with hlt | hge
          · exact hpairs i j hi hj hlt
          · rcases hpairs j i hj hi (by omega) with hx | hx | hx
            · exact Or.inr (Or.inl hx)
            · exact Or.inl hx
            · exact Or.inr (Or.inr (pyEq_false_symm hx))
        rcases base with hx | hx | hx
        · exact h1 hx
        · exact hnn hx
        · rw [pyEq_of_key hcon] at hx
          cases hx
    · rw [if_neg h1]
      exact hmo
  have hs1le : ∀ x, USet.mem (if Row.getD rows[i] c ≠ .vNone then
      s.discard (Row.getD rows[i] c) else s) x = true → USet.mem s x = true := by
    intro x hx
    by_cases h1 : Row.getD rows[i] c ≠ Value.vNone
    · rw [if_pos h1, USet.mem_discard h.sdis] at hx
      rcases hc2 : decide ((Row.getD rows[i] c).key = x.key)
      · rw [if_neg (by simpa using hc2)] at hx
        exact hx
      · rw [if_pos (by simpa using hc2)] at hx
        cases hx
    · rw [if_neg h1] at hx
      exact hx
  have hs1elem : ∀ w, w ∈ (if Row.getD rows[i] c ≠ .vNone then
      s.discard (Row.getD rows[i] c) else s) → w ∈ s := by
    intro w hw
    by_cases h1 : Row.getD rows[i] c ≠ Value.vNone
    · rw [if_pos h1] at hw
      exact USet.elem_discard _ hw
    · rw [if_neg h1] at hw
      exact hw
  have hs1bwd : ∀ w, w ∈ (if Row.getD rows[i] c ≠ .vNone then
      s.discard (Row.getD rows[i] c) else s) →
      w ≠ Value.vNone ∧ ∃ r ∈ rows.set i new_row, pyEq (Row.getD r c) w = true := by
    intro w hw
    obtain ⟨h1, r, hr, h2⟩ := h.bwd w (hs1elem w hw)
    obtain ⟨j, hj, hjget⟩ := List.mem_iff_getElem.mp hr
    refine ⟨h1, ?_⟩
    by_cases hji : j = i
    · exfalso
      subst hji
      rw [← hjget] at h2
      by_cases ho : Row.getD rows[j] c ≠ Value.vNone
      · rw [if_pos ho] at hw
        have := elem_discard_not_class h.sdis hw
        rw [pyEq_symm h2] at this
        cases this
      · have hnone : Row.getD rows[j] c = Value.vNone := by
          by_contra hcon
          exact ho hcon
        rw [hnone] at h2
        rw [pyEq_vNone_iff.mp (pyEq_symm h2)] at h1
        exact h1 rfl
    · exact ⟨rows[j], set_mem_other hj hji new_row, hjget ▸ h2⟩
  refine ⟨?_, ?_, ?_, ?_⟩
  · intro r hr hrnn
    rcases mem_set_pos hr with ⟨_, hr⟩ | ⟨j, hj, hji, hjget⟩
    · subst hr
      rw [if_pos hrnn, USet.mem_add]
      simp [pyEq_refl]
    · subst hjget
      have hmem1 := hs1memother j hj hji hrnn
      by_cases h2 : Row.getD new_row c ≠ Value.vNone
      · rw [if_pos h2, USet.mem_add, hmem1]
        simp
      · rw [if_neg h2]
        exact hmem1
  · intro w hw
    by_cases h2 : Row.getD new_row c ≠ Value.vNone
    · rw [if_pos h2] at hw
      rcases USet.elem_add hw with hw | hw
      · exact hs1bwd w hw
      · subst hw
        exact ⟨h2, new_row, set_mem_self hi new_row, pyEq_refl _⟩
    · rw [if_neg h2] at hw
      exact hs1bwd w hw
  · by_cases h2 : Row.getD new_row c ≠ Value.vNone
    · rw [if_pos h2]
      exact USet.distinct_add hs1dis _
    · rw [if_neg h2]
      exact hs1dis
  · rw [List.pairwise_iff_getElem]
    intro a b ha hb hab
    have ha' : a < rows.length := by simpa using ha
    have hb' : b < rows.length := by simpa using hb
    by_cases hai : a = i <;> by_cases hbi : b = i
    · omega
    · subst hai
      rw [List.getElem_set_self _, getD_set_getElem hb' hbi hb]
      by_cases h2 : Row.getD new_row c ≠ Value.vNone
      · by_cases h3 : Row.getD rows[b] c = Value.vNone
        · exact Or.inr (Or.inl h3)
        · refine Or.inr (Or.inr ?_)
          rcases hc2 : pyEq (Row.getD new_row c) (Row.getD rows[b] c)
          · rfl
          · exfalso
            have hmem1 := hs1memother b hb' hbi h3
            have hms : USet.mem s (Row.getD new_row c) = true := by
              rw [USet.mem_congr s (pyEq_key hc2)]
              exact hs1le _ hmem1
            rw [hcol h2] at hms
            cases hms
      · refine Or.inl ?_
        by_contra hcon
        exact h2 hcon
    · subst hbi
      rw [List.getElem_set_self _, getD_set_getElem ha' hai ha]
      by_cases h2 : Row.getD new_row c ≠ Value.vNone
      · by_cases h3 : Row.getD rows[a] c = Value.vNone
        · exact Or.inl h3
        · refine Or.inr (Or.inr ?_)
          rcases hc2 : pyEq (Row.getD rows[a] c) (Row.getD new_row c)
          · rfl
          · exfalso
            have hmem1 := hs1memother a ha' hai h3
            have hms : USet.mem s (Row.getD new_row c) = true := by
              rw [← USet.mem_congr s (pyEq_key hc2)]
              exact hs1le _ hmem1
            rw [hcol h2] at hms
            cases hms
      · refine Or.inr (Or.inl ?_)
        by_contra hcon
        exact h2 hcon
    · rw [getD_set_getElem ha' hai ha, getD_set_getElem hb' hbi hb]
      exact hpairs a b ha' hb' hab

/-- A successful iteration of the update loop preserves the invariant and
replaces exactly the processed row. -/
theorem Inv_updateRowStep {t : Table} (hinv : Inv t) {updates : Row}
    (hund : (updates.map Prod.fst).Nodup) {i : Nat} {old_row : Row}
    (hi : i < t.rows.length) (hrowi : t.rows[i] = old_row)
    (hok : (updateRowStep t updates i old_row).2 = .ok ()) :
    Inv (updateRowStep t updates i old_row).1 ∧
      (updateRowStep t updates i old_row).1.rows =
        t.rows.set i (Row.update old_row updates) ∧
      (updateRowStep t updates i old_row).1.columns = t.columns := by
  have hgdu := Row.getD_update updates hund old_row
  simp only [updateRowStep] at hok ⊢
  rcases hct : checkTypesUpdate t.columns updates (Row.update old_row updates)
      with e | u0 <;>
    simp only [hct] at hok ⊢
  · cases hok
  rcases hpks : updatePkStep t updates old_row (Row.update old_row updates) i
      with e | pkidx <;>
    simp only [hpks] at hok ⊢
  · cases hok
  rcases hul : updateUniqueLoop t.primary_key updates old_row (Row.update old_row updates)
      t.unique_columns t.unique_indexes with ⟨u2, out⟩
  rcases out with e | u1 <;> simp only [hul] at hok ⊢
  · cases hok
  refine ⟨⟨?_, ?_, ?_, hinv.nodup⟩, by trivial, by trivial⟩
  · intro r hr c hc
    rcases mem_set_pos hr with ⟨_, hreq⟩ | ⟨j, hj, hji, hjget⟩
    · subst hreq
      rw [Row.hasKey_update]
      have hok2 : Row.hasKey old_row c = true :=
        hinv.wf old_row (hrowi ▸ List.getElem_mem hi) c hc
      simp [hok2]
    · subst hjget
      exact hinv.wf _ (List.getElem_mem hj) c hc
  · rcases hpko : t.primary_key with _ | pk
    · have hpkeq : pkidx = t.primary_key_index := by
        unfold updatePkStep at hpks
        simp only [hpko] at hpks
        simpa using hpks.symm
      refine PkInv_of_none hpko ?_
      show pkidx = ([] : DictV)
      rw [hpkeq]
      exact @pkIndex_empty_of_none t hpko hinv.pki
    · have hpinv := PkInvAt_of_PkInv hpko hinv.pki
      refine PkInv_of_some hpko ?_
      show PkInvAt pk (t.rows.set i (Row.update old_row updates)) pkidx
      unfold updatePkStep at hpks
      simp only [hpko] at hpks
      by_cases hhk : updates.hasKey pk = true
      · rw [if_pos hhk] at hpks
        by_cases hcc : ¬ pyEq (Row.getD (Row.update old_row updates) pk)
            (Row.getD old_row pk) = true ∧
            t.primary_key_index.contains (Row.getD (Row.update old_row updates) pk) = true
        · rw [if_pos hcc] at hpks
          cases hpks
        · rw [if_neg hcc] at hpks
          have hpkeq : pkidx =
              (t.primary_key_index.del (Row.getD old_row pk)).set
                (Row.getD (Row.update old_row updates) pk) i := by
            simpa using hpks.symm
          rw [hpkeq, ← hrowi]
          refine PkInvAt_set_move hpinv hi ?_
          rw [hrowi]
          by_cases hcl : pyEq (Row.getD (Row.update old_row updates) pk)
              (Row.getD old_row pk) = true
          · exact Or.inl hcl
          · refine Or.inr ?_
            rcases hlk : t.primary_key_index.lookup
                (Row.getD (Row.update old_row updates) pk) with _ | n
            · rfl
            · exact absurd ⟨hcl, by simp [DictV.contains, hlk]⟩ hcc
      · rw [if_neg hhk] at hpks
        have hpkeq : pkidx = t.primary_key_index := by
          simpa using hpks.symm
        rw [hpkeq]
        have hclass : pyEq (Row.getD t.rows[i] pk)
            (Row.getD (Row.update old_row updates) pk) = true := by
          rw [hgdu pk, if_neg (by simp [hhk]), hrowi]
          exact pyEq_refl _
        exact PkInvAt_set_classEq hpinv hi hclass
  · intro c hc hcpk
    have hc' : c ∈ t.unique_columns := hc
    have hcpk' : t.primary_key ≠ some c := hcpk
    have hbase := hinv.uniq c hc' hcpk'
    obtain ⟨hu1, hu2⟩ := updateUniqueLoop_ok t.unique_columns
      (unique_columns_nodup hinv.nodup) t.unique_indexes hul c
    show UniqInvCol c (t.rows.set i (Row.update old_row updates)) (u2.get c)
    rw [hu1]
    by_cases hcond : updates.hasKey c = true ∧
        pyEq (Row.getD old_row c) (Row.getD (Row.update old_row updates) c) = false
    · rw [if_pos ⟨hc', hcond.1, hcpk', hcond.2⟩]
      have hres := @UniqInvCol_set_classChange c (t.rows) _ hbase i hi
        (Row.update old_row updates) ?_ ?_
      · rw [hrowi] at hres
        exact hres
      · rw [hrowi]
        exact hcond.2
      · intro hnn
        exact hu2 hc' hcond.1 hcpk' hcond.2 hnn
    · rw [if_neg (fun hcon => hcond ⟨hcon.2.1, hcon.2.2.2⟩)]
      have hclass : pyEq (Row.getD t.rows[i] c)
          (Row.getD (Row.update old_row updates) c) = true := by
        rw [hrowi]
        by_cases hhk : updates.hasKey c = true
        · rcases hpe : pyEq (Row.getD old_row c) (Row.getD (Row.update old_row updates) c)
          · exact absurd ⟨hhk, hpe⟩ hcond
          · rfl
        · rw [hgdu c, if_neg (by simp [hhk])]
          exact pyEq_refl _
      exact UniqInvCol_set_classEq hbase hi hclass

/-- The update loop preserves the invariant when it completes without
raising, and leaves the schema and the row count unchanged. -/
theorem Inv_updateLoop {updates : Row} (hund : (updates.map Prod.fst).Nodup) :
    ∀ (ps : List (Nat × Row)) (t : Table) (n : Nat), Inv t →
      (∀ p ∈ ps, t.rows[p.1]? = some p.2) →
      ps.Pairwise (fun p q => p.1 < q.1) →
      ∀ (m : Nat), (updateLoop updates ps t n).2 = .ok m →
      Inv (updateLoop updates ps t n).1 ∧
        (updateLoop updates ps t n).1.columns = t.columns ∧
        (updateLoop updates ps t n).1.rows.length = t.rows.length
  | [], t, n, hinv, _, _, m, _ => ⟨hinv, rfl, rfl⟩
  | (i, old_row) :: rest, t, n, hinv, hmem, hpair, m, hok => by
    have hmi := hmem (i, old_row) (List.mem_cons_self _ _)
    rw [List.getElem?_eq_some_iff] at hmi
    obtain ⟨hi, hrowi⟩ := hmi
    simp only [updateLoop] at hok ⊢
    rcases hstep : updateRowStep t updates i old_row with ⟨t1, res⟩
    rcases res with e | u <;> simp only [hstep] at hok ⊢
    · cases hok
    obtain ⟨hinv1, hrows1, hcols1⟩ :=
      Inv_updateRowStep hinv hund hi hrowi (by rw [hstep])
    simp only [hstep] at hinv1 hrows1 hcols1
    have hmem1 : ∀ p ∈ rest, t1.rows[p.1]? = some p.2 := by
      intro p hp
      have hlt : i < p.1 := (List.pairwise_cons.mp hpair).1 p hp
      rw [hrows1, List.getElem?_set_ne (Nat.ne_of_lt hlt)]
      exact hmem p (List.mem_cons_of_mem _ hp)
    have hrec := Inv_updateLoop hund rest t1 (n + 1) hinv1 hmem1
      (List.pairwise_cons.mp hpair).2 m hok
    refine ⟨hrec.1, ?_, ?_⟩
    · rw [hrec.2.1, hcols1]
    · rw [hrec.2.2, hrows1, List.length_set]

/-- `Table.update` preserves the invariant when it completes without
raising. -/
theorem Inv_update {t : Table} (hinv : Inv t) {updates : Row}
    (hund : (updates.map Prod.fst).Nodup) (condition : Row → Bool) {m : Nat}
    (hok : (t.update updates condition).2 = .ok m) :
    Inv (t.update updates condition).1 ∧
      (t.update updates condition).1.columns = t.columns ∧
      (t.update updates condition).1.rows.length = t.rows.length := by
  have hmem : ∀ p ∈ matchedRows t condition, t.rows[p.1]? = some p.2 := by
    intro p hp
    exact List.mem_enum_iff_getElem?.mp (List.mem_filter.mp hp).1
  have hpair : (matchedRows t condition).Pairwise (fun p q => p.1 < q.1) :=
    (pairwise_fst_lt_enumFrom t.rows 0).sublist (List.filter_sublist _)
  exact Inv_updateLoop hund (matchedRows t condition) t 0 hinv hmem hpair m hok

/-- A successful update iteration replaces exactly the processed row (no
invariant needed). -/
theorem updateRowStep_ok_frame {t : Table} {updates : Row} {i : Nat} {old_row : Row}
    (hok : (updateRowStep t updates i old_row).2 = .ok ()) :
    (updateRowStep t updates i old_row).1.rows =
      t.rows.set i (Row.update old_row updates) ∧
    (updateRowStep t updates i old_row).1.columns = t.columns := by
  simp only [updateRowStep] at hok ⊢
  rcases hct : checkTypesUpdate t.columns updates (Row.update old_row updates)
      with e | u0 <;> simp only [hct] at hok ⊢
  · cases hok
  rcases hpks : updatePkStep t updates old_row (Row.update old_row updates) i
      with e | pkidx <;> simp only [hpks] at hok ⊢
  · cases hok
  rcases hul : updateUniqueLoop t.primary_key updates old_row (Row.update old_row updates)
      t.unique_columns t.unique_indexes with ⟨u2, out⟩
  rcases out with e | u1 <;> simp only [hul] at hok ⊢
  · cases hok
  exact ⟨by trivial, by trivial⟩

/-- A raising update iteration never touches the stored row list or the
schema (only the indexes can be left mutated). -/
theorem updateRowStep_error_frame {t : Table} {updates : Row} {i : Nat} {old_row : Row}
    {e : String} (herr : (updateRowStep t updates i old_row).2 = .error e) :
    (updateRowStep t updates i old_row).1.rows = t.rows ∧
    (updateRowStep t updates i old_row).1.columns = t.columns := by
  simp only [updateRowStep] at herr ⊢
  rcases hct : checkTypesUpdate t.columns updates (Row.update old_row updates)
      with e0 | u0 <;> simp only [hct] at herr ⊢
  · exact ⟨by trivial, by trivial⟩
  rcases hpks : updatePkStep t updates old_row (Row.update old_row updates) i
      with e0 | pkidx <;> simp only [hpks] at herr ⊢
  · exact ⟨by trivial, by trivial⟩
  rcases hul : updateUniqueLoop t.primary_key updates old_row (Row.update old_row updates)
      t.unique_columns t.unique_indexes with ⟨u2, out⟩
  rcases out with e0 | u1 <;> simp only [hul] at herr ⊢
  · exact ⟨by trivial, by trivial⟩
  · cases herr

/-- When the update loop completes, the returned count is the number of
processed matches and every merged candidate row was committed. -/
theorem updateLoop_ok_spec {updates : Row} :
    ∀ (ps : List (Nat × Row)) (t : Table) (n m : Nat),
      (updateLoop updates ps t n).2 = .ok m →
      m = n + ps.length ∧
      (updateLoop updates ps t n).1.rows = applyMatched updates ps t.rows
  | [], t, n, m, hok => by
    simp only [updateLoop] at hok ⊢
    injection hok with h
    subst h
    exact ⟨by simp, rfl⟩
  | (i, old_row) :: rest, t, n, m, hok => by
    simp only [updateLoop] at hok ⊢
    rcases hstep : updateRowStep t updates i old_row with ⟨t1, res⟩
    rcases res with e | u <;> simp only [hstep] at hok ⊢
    · cases hok
    have hframe := @updateRowStep_ok_frame t updates i old_row (by rw [hstep])
    simp only [hstep] at hframe
    have hrec := updateLoop_ok_spec rest t1 (n + 1) m hok
    refine ⟨by rw [hrec.1]; simp; omega, ?_⟩
    rw [hrec.2]
    show applyMatched updates rest t1.rows =
      applyMatched updates rest (t.rows.set i (Row.update old_row updates))
    rw [hframe.1]

/-- When the update loop raises, there is a first failing match: every
earlier match was processed and committed, the failing iteration produced
the raise and its (possibly index-mutated) state is the final state, and
no later match was attempted. -/
theorem updateLoop_error_split {updates : Row} :
    ∀ (ps : List (Nat × Row)) (t : Table) (n : Nat) (e : String),
      (updateLoop updates ps t n).2 = .error e →
      ∃ k, ∃ hk : k < ps.length,
        (updateLoop updates (ps.take k) t n).2 = .ok (n + k) ∧
        (updateRowStep (updateLoop updates (ps.take k) t n).1 updates
            (ps.get ⟨k, hk⟩).1 (ps.get ⟨k, hk⟩).2).2 = .error e ∧
        (updateLoop updates ps t n).1 =
          (updateRowStep (updateLoop updates (ps.take k) t n).1 updates
            (ps.get ⟨k, hk⟩).1 (ps.get ⟨k, hk⟩).2).1
  | [], t, n, e, herr => by
    simp only [updateLoop] at herr
    cases herr
  | (i, old_row) :: rest, t, n, e, herr => by
    simp only [updateLoop] at herr ⊢
    rcases hstep : updateRowStep t updates i old_row with ⟨t1, res⟩
    rcases res with e0 | u <;> simp only [hstep] at herr ⊢
    · injection herr with he
      subst he
      refine ⟨0, Nat.succ_pos _, ?_, ?_, ?_⟩
      · simp [updateLoop]
      · simp [List.take, updateLoop, List.get, hstep]
      · simp [List.take, updateLoop, List.get, hstep]
    · obtain ⟨k, hk, h1, h2, h3⟩ := updateLoop_error_split rest t1 (n + 1) e herr
      refine ⟨k + 1, Nat.succ_lt_succ hk, ?_, ?_, ?_⟩
      · simp only [List.take, updateLoop, hstep]
        rw [show n + (k + 1) = n + 1 + k by omega]
        exact h1
      · simp only [List.take, List.get, updateLoop, hstep]
        exact h2
      · simp only [List.take, List.get, updateLoop, hstep]
        exact h3

/-- A single non-raising call preserves the invariant. -/
theorem Inv_applyOp {t : Table} (hinv : Inv t) {op : Op} (hok : opOK t op = true) :
    Inv (applyOp t op) := by
  cases op with
  | ins row => exact Inv_insert hinv row
  | upd updates condition =>
    simp only [opOK, Bool.and_eq_true, decide_eq_true_eq] at hok
    rcases hres : (t.update updates condition).2 with e | m
    · rw [hres] at hok
      simp at hok
    · exact (Inv_update hinv hok.1 condition hres).1
  | del condition => exact Inv_delete hinv condition
  | delPk v => exact Inv_delete_by_primary_key hinv v

/-- A sequence of non-raising calls preserves the invariant. -/
theorem Inv_applyOps : ∀ (ops : List Op) (t : Table), Inv t →
    opsOK t ops = true → Inv (applyOps t ops)
  | [], t, hinv, _ => hinv
  | op :: rest, t, hinv, hok => by
    simp only [opsOK, Bool.and_eq_true] at hok
    exact Inv_applyOps rest (applyOp t op) (Inv_applyOp hinv hok.1) hok.2

/-- **C2** (amended): starting from any table state satisfying the index
invariant, a sequence of `insert`, `update`, `delete` and
`delete_by_primary_key` calls in which no `update` call raises (the other
calls may fail — their raises leave the state unchanged) keeps the
primary-key and uniqueness indexes exactly consistent with the rows: the
invariant still holds, and `get_by_primary_key` agrees with a full scan
on every key. -/
theorem c2_index_consistency (t0 : Table) (hinv : Inv t0) (ops : List Op)
    (hok : opsOK t0 ops = true) :
    Inv (applyOps t0 ops) ∧
      ∀ pk, (applyOps t0 ops).primary_key = some pk →
        ∀ v, (applyOps t0 ops).get_by_primary_key v =
          .ok ((applyOps t0 ops).rows.find? (fun r => pyEq (Row.getD r pk) v)) := by
  have hinv2 := Inv_applyOps ops t0 hinv hok
  exact ⟨hinv2, fun pk hpk v =>
    get_by_primary_key_eq_scan hpk (PkInvAt_of_PkInv hpk hinv2.pki) v⟩

/-- **C2** witness: a concrete call sequence on the `users` table. -/
theorem c2_index_consistency_witness :
    Inv (applyOps usersT wOpsC2) ∧
      (applyOps usersT wOpsC2).get_by_primary_key (.vInt 1) =
        .ok ((applyOps usersT wOpsC2).rows.find?
          (fun r => pyEq (Row.getD r "id") (.vInt 1))) := by
  have h := c2_index_consistency usersT (checkInv_sound (by decide)) wOpsC2 (by decide)
  exact ⟨h.1, h.2 "id" (by decide) (.vInt 1)⟩

/-- **C2** counterexample (refuting the claim as stated): after the
failing `update`, the primary-key index disagrees with the rows —
`get_by_primary_key` finds a row under key `3` though no stored row has
primary key `3`, and finds nothing under key `1` though a stored row has
primary key `1`. -/
theorem c2_counterexample :
    (usersT2.update updBad condId1).2 =
      .error "Unique constraint violation on column email" ∧
    usersT3.rows.find? (fun r => pyEq (Row.getD r "id") (.vInt 3)) = none ∧
    usersT3.get_by_primary_key (.vInt 3) =
      .ok (some [("id", .vInt 1), ("email", .vStr "a")]) ∧
    (∃ r ∈ usersT3.rows, pyEq (Row.getD r "id") (.vInt 1) = true) ∧
    usersT3.get_by_primary_key (.vInt 1) = .ok none := by
  refine ⟨by rfl, by decide, by rfl, ⟨rowU1, by decide⟩, by rfl⟩

/-- **C3** (amended): in the per-row update body, the stored row list is
never changed by a failing iteration, and the type check and the
primary-key collision check both complete before any mutation — if either
of them fails the table is entirely unchanged.  (A uniqueness-check
failure, by contrast, occurs after the primary-key index has been moved
and earlier unique columns' indexes mutated; see the counterexample.) -/
theorem c3_validation_order (t : Table) (updates : Row) (i : Nat) (old_row : Row) :
    (∀ e, (updateRowStep t updates i old_row).2 = .error e →
      (updateRowStep t updates i old_row).1.rows = t.rows) ∧
    (∀ e, checkTypesUpdate t.columns updates (Row.update old_row updates) = .error e →
      (updateRowStep t updates i old_row).1 = t) ∧
    (∀ e, updatePkStep t updates old_row (Row.update old_row updates) i = .error e →
      (updateRowStep t updates i old_row).1 = t) := by
  refine ⟨fun e he => (updateRowStep_error_frame he).1, fun e he => ?_, fun e he => ?_⟩
  · simp only [updateRowStep, he]
  · simp only [updateRowStep, he]
    rcases hct : checkTypesUpdate t.columns updates (Row.update old_row updates)
        with e0 | u0 <;> simp only [hct]

/-- **C3** witness: a type-mismatching assignment leaves the two-row
`users` table entirely unchanged. -/
theorem c3_validation_order_witness :
    checkTypesUpdate usersT2.columns [("id", .vStr "x")]
      (Row.update rowU1 [("id", .vStr "x")]) = .error "Column id type mismatch" ∧
    (updateRowStep usersT2 [("id", .vStr "x")] 0 rowU1).1 = usersT2 := by
  refine ⟨by rfl, ?_⟩
  exact (c3_validation_order usersT2 [("id", .vStr "x")] 0 rowU1).2.1 _ (by rfl)

/-- **C3** counterexample (refuting the claim as stated): a uniqueness
failure on the merged candidate is detected only after the primary-key
index entry has been moved — the iteration raises, yet the index differs
from its pre-call value. -/
theorem c3_counterexample :
    (updateRowStep usersT2 updBad 0 rowU1).2 =
      .error "Unique constraint violation on column email" ∧
    usersT2.primary_key_index = [(.vInt 1, 0), (.vInt 2, 1)] ∧
    (updateRowStep usersT2 updBad 0 rowU1).1.primary_key_index =
      [(.vInt 2, 1), (.vInt 3, 0)] := by
  refine ⟨by rfl, by decide, by decide⟩

/-- **C4** (amended): `update` processes the matched rows in order and
aborts at the first failing candidate.  On success the returned count is
the number of matched rows, each replaced by its merged candidate.  On a
raise there is a first failing match: every earlier match was committed,
the final state is the failing iteration's raise-point state, no later
match was attempted, and no count is returned. -/
theorem c4_update_batch (t : Table) (updates : Row) (condition : Row → Bool) :
    (∀ m, (t.update updates condition).2 = .ok m →
      m = (matchedRows t condition).length ∧
      (t.update updates condition).1.rows =
        applyMatched updates (matchedRows t condition) t.rows) ∧
    (∀ e, (t.update updates condition).2 = .error e →
      ∃ k, ∃ hk : k < (matchedRows t condition).length,
        (updateLoop updates ((matchedRows t condition).take k) t 0).2 = .ok k ∧
        (t.update updates condition).1 =
          (updateRowStep (updateLoop updates ((matchedRows t condition).take k) t 0).1
            updates ((matchedRows t condition).get ⟨k, hk⟩).1
            ((matchedRows t condition).get ⟨k, hk⟩).2).1 ∧
        (updateRowStep (updateLoop updates ((matchedRows t condition).take k) t 0).1
            updates ((matchedRows t condition).get ⟨k, hk⟩).1
            ((matchedRows t condition).get ⟨k, hk⟩).2).2 = .error e) := by
  constructor
  · intro m hok
    have h := updateLoop_ok_spec (matchedRows t condition) t 0 m hok
    exact ⟨by simpa using h.1, h.2⟩
  · intro e he
    obtain ⟨k, hk, h1, h2, h3⟩ :=
      updateLoop_error_split (matchedRows t condition) t 0 e he
    exact ⟨k, hk, by simpa using h1, h3, h2⟩

/-- **C4** witness: a concrete two-row update aborting on its second
matched row. -/
theorem c4_update_batch_witness :
    (usersT2.update updZZ condTrue).2 =
      .error "Unique constraint violation on column email" ∧
    (∃ k, ∃ hk : k < (matchedRows usersT2 condTrue).length,
      (updateLoop updZZ ((matchedRows usersT2 condTrue).take k) usersT2 0).2 = .ok k ∧
      (usersT2.update updZZ condTrue).1 =
        (updateRowStep
          (updateLoop updZZ ((matchedRows usersT2 condTrue).take k) usersT2 0).1
          updZZ ((matchedRows usersT2 condTrue).get ⟨k, hk⟩).1
          ((matchedRows usersT2 condTrue).get ⟨k, hk⟩).2).1 ∧
      (updateRowStep
        (updateLoop updZZ ((matchedRows usersT2 condTrue).take k) usersT2 0).1
        updZZ ((matchedRows usersT2 condTrue).get ⟨k, hk⟩).1
        ((matchedRows usersT2 condTrue).get ⟨k, hk⟩).2).2 =
          .error "Unique constraint violation on column email") := by
  exact ⟨by rfl, (c4_update_batch usersT2 updZZ condTrue).2 _ (by rfl)⟩

/-- **C4** counterexample (refuting the claim as stated): one row of the
batch was actually changed, yet `update` returns a raise rather than the
count `1` — the batch aborted at the first failure instead of attempting
the remaining matches. -/
theorem c4_counterexample :
    (usersT2.update updZZ condTrue).2 =
      .error "Unique constraint violation on column email" ∧
    (usersT2.update updZZ condTrue).1.rows =
      [[("id", .vInt 1), ("email", .vStr "zz")],
       [("id", .vInt 2), ("email", .vStr "b")]] ∧
    usersT2.rows =
      [[("id", .vInt 1), ("email", .vStr "a")],
       [("id", .vInt 2), ("email", .vStr "b")]] := by
  refine ⟨by rfl, by decide, by decide⟩

/-- **C5**: `insert` is atomic.  Any validation failure (missing not-null
column, type mismatch, duplicate primary key, duplicate unique value)
leaves the table exactly unchanged — rows, primary-key index and
uniqueness indexes.  On success the materialized row is appended at the
end, it is found by `get_by_primary_key` under its primary-key value, and
the index invariant is preserved. -/
theorem c5_insert_atomic (t : Table) (hinv : Inv t) (row : Row) :
    (∀ e, (t.insert row).2 = .error e → (t.insert row).1 = t) ∧
    (∀ mrow, t.validate_row row = .ok mrow →
      (t.insert row).1.rows = t.rows ++ [mrow] ∧
      ∀ pk, t.primary_key = some pk →
        (t.insert row).1.get_by_primary_key (Row.getD mrow pk) = .ok (some mrow)) ∧
    Inv (t.insert row).1 := by
  refine ⟨fun e he => ?_, fun mrow hv => ?_, Inv_insert hinv row⟩
  · unfold Table.insert at he ⊢
    rcases hval : t.validate_row row with e0 | r0 <;> simp only [hval] at he ⊢
    cases he
  · unfold Table.insert
    simp only [hv]
    refine ⟨by trivial, fun pk hpk => ?_⟩
    show Table.get_by_primary_key _ _ = _
    unfold Table.get_by_primary_key
    have hpk2 : Table.primary_key
        { t with
            rows := t.rows ++ [mrow]
            primary_key_index :=
              match t.primary_key with
              | some pk => t.primary_key_index.set (Row.getD mrow pk) t.rows.length
              | none => t.primary_key_index
            unique_indexes := addUniques t.primary_key t.unique_columns mrow t.unique_indexes } =
        some pk := hpk
    rw [hpk2]
    simp only [hpk]
    rw [DictV.lookup_set]
    simp [List.getElem?_concat_length]

/-- **C5** witness: inserting a fresh row into the two-row `users`
table. -/
theorem c5_insert_atomic_witness :
    (usersT2.insert [("id", .vInt 3), ("email", .vStr "c")]).1.rows =
      usersT2.rows ++ [[("id", .vInt 3), ("email", .vStr "c")]] ∧
    (usersT2.insert [("id", .vInt 3), ("email", .vStr "c")]).1.get_by_primary_key
      (.vInt 3) = .ok (some [("id", .vInt 3), ("email", .vStr "c")]) ∧
    Inv (usersT2.insert [("id", .vInt 3), ("email", .vStr "c")]).1 := by
  have h := c5_insert_atomic usersT2 (checkInv_sound (by decide))
    [("id", .vInt 3), ("email", .vStr "c")]
  have h2 := h.2.1 [("id", .vInt 3), ("email", .vStr "c")] (by rfl)
  exact ⟨h2.1, h2.2 "id" (by rfl), h.2.2⟩

/-- **C6** (amended): a primary-key column is implicitly unique on every
table state satisfying the index invariant — the invariant every call
preserves except a raising `update` — no two such stored rows have
`==`-equal primary-key values, a null key included.  Once a raising
update has broken the index, a duplicate key can be stored.  And the
column is *not* implicitly not-null: a null primary-key value passes
validation and is stored whenever the column is not explicitly flagged
not-null (see the counterexample for both failures). -/
theorem c6_pk_implicit_unique {t : Table} (hinv : Inv t) {pk : String}
    (hpk : t.primary_key = some pk) :
    List.Pairwise
      (fun r1 r2 => pyEq (Row.getD r1 pk) (Row.getD r2 pk) = false) t.rows :=
  pk_pairwise_of_inv (PkInvAt_of_PkInv hpk hinv.pki)

/-- **C6** witness: the two stored `users` rows have distinct keys. -/
theorem c6_pk_implicit_unique_witness :
    List.Pairwise
      (fun r1 r2 => pyEq (Row.getD r1 "id") (Row.getD r2 "id") = false)
      usersT2.rows :=
  c6_pk_implicit_unique (checkInv_sound (by decide)) (by rfl)

/-- **C6** counterexample (refuting the claim as stated): with the
primary key not flagged not-null, an insert omitting the key column is
accepted and stores a null key — only the *second* null key is rejected,
by index uniqueness, not by any not-null rule.  And on the reachable
state the failing update left behind, whose index no longer holds the
key `1`, inserting a second row with primary key `1` succeeds, so
at-most-one-row-per-key also fails there. -/
theorem c6_counterexample :
    (usersT.insert [("email", .vStr "a")]).2 = .ok () ∧
    (usersT.insert [("email", .vStr "a")]).1.rows =
      [[("email", .vStr "a"), ("id", .vNone)]] ∧
    ((usersT.insert [("email", .vStr "a")]).1.insert [("email", .vStr "b")]).2 =
      .error "Primary key violation: key already exists" ∧
    (usersT3.insert [("id", .vInt 1), ("email", .vStr "z")]).2 = .ok () ∧
    (usersT3.insert [("id", .vInt 1), ("email", .vStr "z")]).1.rows =
      [[("id", .vInt 1), ("email", .vStr "a")],
       [("id", .vInt 2), ("email", .vStr "b")],
       [("id", .vInt 1), ("email", .vStr "z")]] := by
  refine ⟨by rfl, by decide, by rfl, by rfl, by decide⟩

/-- **C7** (amended): the per-value type test used by both `insert` and
`update` accepts exactly the Python `isinstance` classes: an INT column
accepts integers *and* booleans (`bool` is a subclass of `int`), a FLOAT
column accepts floats, integers and booleans, TEXT only strings, BOOL
only booleans.  In particular a boolean supplied for an INT or FLOAT
column is **not** rejected, contrary to the exact-match claim. -/
theorem c7_type_check (col : Column) (v : Value) :
    typeErr col v = false ↔
      (col.data_type = DataType.INT ∧
        ((∃ n, v = .vInt n) ∨ (∃ b, v = .vBool b))) ∨
      (col.data_type = DataType.TEXT ∧ (∃ s, v = .vStr s)) ∨
      (col.data_type = DataType.FLOAT ∧
        ((∃ q, v = .vFloat q) ∨ (∃ n, v = .vInt n) ∨ (∃ b, v = .vBool b))) ∨
      (col.data_type = DataType.BOOL ∧ (∃ b, v = .vBool b)) := by
  rcases v <;> rcases hdt : col.data_type <;>
    simp [typeErr, hdt, isinstInt, isinstStr, isinstNum, isinstBool]

/-- **C7** counterexample (refuting the claim as stated): a boolean value
passes the INT and FLOAT type tests, and inserting a boolean into an INT
column succeeds and stores it. -/
theorem c7_counterexample :
    typeErr ⟨"n", DataType.INT, false, false, false⟩ (.vBool true) = false ∧
    typeErr ⟨"n", DataType.FLOAT, false, false, false⟩ (.vBool true) = false ∧
    (intT.insert [("n", .vBool true)]).2 = .ok () ∧
    (intT.insert [("n", .vBool true)]).1.rows = [[("n", .vBool true)]] := by
  refine ⟨by decide, by decide, by rfl, by decide⟩

/-- **C8** (amended): `select_all` returns the stored rows in insertion
order, but as a *shallow* copy: the returned list object is fresh, while
the row objects are shared — mutating in place a row object reached
through the returned list is visible in the table's stored rows at the
same position. -/
theorem c8_select_all_shallow (t : TableRef) (h : Heap) (i : Nat)
    (hi : i < t.select_all_ref.length) (r : Row)
    (hloc : t.select_all_ref.get ⟨i, hi⟩ < h.length) :
    t.select_all_ref.map h.getRow = t.storedRows h ∧
    (t.storedRows (h.setRow (t.select_all_ref.get ⟨i, hi⟩) r))[i]? = some r := by
  refine ⟨rfl, ?_⟩
  show (List.map (Heap.getRow (h.setRow (t.select_all_ref.get ⟨i, hi⟩) r))
    t.row_locs)[i]? = some r
  rw [List.getElem?_map]
  have hsome : t.row_locs[i]? = some (t.select_all_ref.get ⟨i, hi⟩) := by
    rw [List.getElem?_eq_some_iff]
    exact ⟨hi, rfl⟩
  rw [hsome]
  show some (Heap.getRow _ _) = some r
  unfold Heap.getRow Heap.setRow
  rw [List.getElem?_set_self hloc]
  rfl

/-- **C8** witness: mutating the row reached through `select_all`'s
result changes the table's stored row. -/
theorem c8_select_all_shallow_witness :
    tC8.select_all_ref.map hC8.getRow = tC8.storedRows hC8 ∧
    (tC8.storedRows (hC8.setRow (tC8.select_all_ref.get ⟨0, by decide⟩)
      [("id", .vInt 99)]))[0]? = some [("id", .vInt 99)] :=
  c8_select_all_shallow tC8 hC8 0 (by decide) [("id", .vInt 99)] (by decide)

/-- **C8** counterexample (refuting the independent-copies claim): after
an in-place mutation of the single row returned by `select_all`, the
table's stored rows have changed. -/
theorem c8_counterexample :
    tC8.storedRows hC8 = [[("id", .vInt 1)]] ∧
    tC8.storedRows (hC8.setRow tC8.select_all_ref.headI [("id", .vInt 99)]) =
      [[("id", .vInt 99)]] := by
  exact ⟨by decide, by decide⟩

/-- Writing an absent key appends the entry. -/
theorem Row.set_fresh : ∀ (r : Row) (k : String), hasKey r k = false →
    ∀ (v : Value), set r k v = r ++ [(k, v)]
  | [], _, _, _ => rfl
  | (k0, v0) :: rest, k, h, v => by
    simp only [hasKey_cons, Bool.or_eq_false_iff, decide_eq_false_iff_not] at h
    simp only [set, if_neg h.1, List.cons_append]
    rw [Row.set_fresh rest k h.2 v]

theorem Row.hasKey_append (a b : Row) (k : String) :
    hasKey (a ++ b) k = (hasKey a k || hasKey b k) := by
  induction a with
  | nil => simp
  | cons p rest ih =>
    obtain ⟨k0, v0⟩ := p
    simp [hasKey_cons, ih, Bool.or_assoc]

/-- The projection comprehension, written out: one entry per selected
column, in selection order. -/
theorem projectRow_go (row : Row) :
    ∀ (cols : List String) (acc : Row), cols.Nodup →
      (∀ c ∈ cols, Row.hasKey acc c = false) →
      cols.foldl (fun acc c => acc.set c (Row.getD row c)) acc =
        acc ++ cols.map (fun c => (c, Row.getD row c))
  | [], acc, _, _ => by simp
  | c :: rest, acc, hnd, hfresh => by
    have hfr : ∀ c2 ∈ rest, Row.hasKey (acc ++ [(c, Row.getD row c)]) c2 = false := by
      intro c2 hc2
      have hne : ¬ c = c2 := fun h => (List.nodup_cons.mp hnd).1 (h ▸ hc2)
      rw [Row.hasKey_append]
      simp [hfresh c2 (List.mem_cons_of_mem _ hc2), hne]
    simp only [List.foldl_cons]
    rw [Row.set_fresh acc c (hfresh c (List.mem_cons_self _ _)) _,
      projectRow_go row rest (acc ++ [(c, Row.getD row c)]) (List.nodup_cons.mp hnd).2 hfr]
    simp

theorem projectRow_eq_map {cols : List String} (hnd : cols.Nodup) (row : Row) :
    projectRow cols row = cols.map (fun c => (c, Row.getD row c)) := by
  unfold projectRow
  rw [projectRow_go row cols [] hnd (fun c _ => rfl)]
  simp

/-- In a duplicate-free row, lookup returns each entry's own value. -/
theorem Row.getD_eq_of_nodup : ∀ {r : Row}, (r.map Prod.fst).Nodup →
    ∀ p ∈ r, Row.getD r p.1 = p.2
  | [], _, p, hp => absurd hp (List.not_mem_nil p)
  | (k, v) :: rest, hnd, p, hp => by
    rcases List.mem_cons.mp hp with rfl | hp2
    · simp [Row.getD, Row.get?_cons]
    · have hk : ¬ k = p.1 := by
        intro h
        have hmem : p.1 ∈ rest.map Prod.fst := List.mem_map_of_mem _ hp2
        rw [List.map_cons] at hnd
        exact (List.nodup_cons.mp hnd).1 (h ▸ hmem)
      simp only [Row.getD, Row.get?_cons, if_neg hk]
      rw [List.map_cons] at hnd
      exact Row.getD_eq_of_nodup (List.nodup_cons.mp hnd).2 p hp2

/-- Projecting onto a duplicate-free column list that covers exactly a
duplicate-free row's keys permutes the row. -/
theorem perm_projectRow {cols : List String} (hnd : cols.Nodup) {row : Row}
    (hknd : (row.map Prod.fst).Nodup)
    (hsub : ∀ p ∈ row, p.1 ∈ cols)
    (hall : ∀ c ∈ cols, Row.hasKey row c = true) :
    (projectRow cols row).Perm row := by
  rw [projectRow_eq_map hnd row]
  have hkeys : cols.Perm (row.map Prod.fst) := by
    rw [List.perm_ext_iff_of_nodup hnd hknd]
    intro c
    constructor
    · intro hc
      exact Row.hasKey_iff_mem_keys.mp (hall c hc)
    · intro hc
      obtain ⟨p, hp, rfl⟩ := List.mem_map.mp hc
      exact hsub p hp
  refine (hkeys.map (fun c => (c, Row.getD row c))).trans ?_
  rw [List.map_map]
  have hcg : ∀ p ∈ row, ((fun c => (c, Row.getD row c)) ∘ Prod.fst) p = id p := by
    intro p hp
    simp [Row.getD_eq_of_nodup hknd p hp]
  rw [List.map_congr_left hcg, List.map_id]

/-- **C9** (amended): on a schema without an empty or wildcard column-name
list, the round trip `select_columns (select_all ()) column_names`
succeeds, and — provided every stored row's keys are exactly the declared
columns (duplicate-free, no undeclared extras; an extra key survives
insertion and is dropped by the projection, see the counterexample) —
each projected row is the stored row up to key ordering.  An empty or
wildcard-containing selection returns the input rows unprojected. -/
theorem c9_roundtrip (t : Table) (hinv : Inv t)
    (hne : t.column_names ≠ []) (hstar : "*" ∉ t.column_names)
    (hsub : ∀ r ∈ t.rows, ∀ p ∈ r, p.1 ∈ t.column_names)
    (hknd : ∀ r ∈ t.rows, (r.map Prod.fst).Nodup) :
    t.select_columns t.select_all t.column_names =
      .ok (t.select_all.map (projectRow t.column_names)) ∧
    (∀ r ∈ t.select_all, (projectRow t.column_names r).Perm r) ∧
    (∀ rows, t.select_columns rows [] = .ok rows) ∧
    (∀ rows cols, "*" ∈ cols → t.select_columns rows cols = .ok rows) := by
  refine ⟨?_, fun r hr => ?_, fun rows => ?_, fun rows cols hc => ?_⟩
  · unfold Table.select_columns
    rw [if_neg (by simp [hne, hstar])]
    have hfind : t.column_names.find? (fun c => !t.column_names.contains c) = none := by
      rw [List.find?_eq_none]
      intro c hc
      simp [hc]
    rw [hfind]
  · exact perm_projectRow hinv.nodup (hknd r hr) (hsub r hr)
      (fun c hc => hinv.wf r hr c hc)
  · simp [Table.select_columns]
  · simp [Table.select_columns, hc]

/-- **C9** witness: the round trip on the two-row `users` table. -/
theorem c9_roundtrip_witness :
    usersT2.select_columns usersT2.select_all usersT2.column_names =
      .ok (usersT2.select_all.map (projectRow usersT2.column_names)) ∧
    (projectRow usersT2.column_names rowU1).Perm rowU1 ∧
    usersT2.select_columns usersT2.select_all [] = .ok usersT2.select_all := by
  have h := c9_roundtrip usersT2 (checkInv_sound (by decide)) (by decide)
    (by decide) (by decide) (by decide)
  exact ⟨h.1, h.2.1 rowU1 (by decide), h.2.2.1 usersT2.select_all⟩

/-- **C9** counterexample (refuting the universal round trip): a stored
row carrying an entry for an undeclared column loses that entry under the
projection, so the round trip is not the identity up to key ordering. -/
theorem c9_counterexample :
    (intT.insert [("n", .vInt 1), ("x", .vInt 2)]).2 = .ok () ∧
    extraT.select_all = [[("n", .vInt 1), ("x", .vInt 2)]] ∧
    extraT.select_columns extraT.select_all extraT.column_names =
      .ok [[("n", .vInt 1)]] ∧
    ¬ ([("n", .vInt 1)] : Row).Perm [("n", .vInt 1), ("x", .vInt 2)] := by
  refine ⟨by rfl, by decide, by rfl, by decide⟩

theorem Row.get?_append_single {k c : String} (hne : k ≠ c) :
    ∀ (r : Row) (v : Value), Row.get? (r ++ [(k, v)]) c = Row.get? r c
  | [], v => by simp [Row.get?_cons, hne]
  | (k0, v0) :: rest, v => by
    by_cases h : k0 = c <;>
      simp [Row.get?_cons, h, Row.get?_append_single hne rest v]

theorem Row.getD_append_single {k c : String} (hne : k ≠ c) (r : Row) (v : Value) :
    Row.getD (r ++ [(k, v)]) c = Row.getD r c := by
  simp [Row.getD, Row.get?_append_single hne r v]

theorem Row.hasKey_append_single {k c : String} (hne : k ≠ c) (r : Row) (v : Value) :
    Row.hasKey (r ++ [(k, v)]) c = Row.hasKey r c := by
  rw [Row.hasKey_append]
  simp [hne]

/-- When every declared column is present, the materialization loop is the
identity. -/
theorem materialize_of_present : ∀ (cols : List Column) (row : Row),
    (∀ col ∈ cols, Row.hasKey row col.name = true) →
    materialize cols row = .ok row
  | [], _, _ => rfl
  | col :: rest, row, h => by
    unfold materialize
    rw [if_pos (h col (List.mem_cons_self _ _))]
    exact materialize_of_present rest row (fun c hc => h c (List.mem_cons_of_mem _ hc))

/-- The type-check loop never reads an entry whose key is not a declared
column name. -/
theorem checkTypes_append_single {k : String} (v : Value) :
    ∀ (cols : List Column) (row : Row), (∀ col ∈ cols, col.name ≠ k) →
      checkTypes cols (row ++ [(k, v)]) = checkTypes cols row
  | [], _, _ => rfl
  | col :: rest, row, h => by
    unfold checkTypes
    rw [Row.getD_append_single
        (fun he : k = col.name => h col (List.mem_cons_self _ _) he.symm) row v,
      checkTypes_append_single v rest row (fun c hc => h c (List.mem_cons_of_mem _ hc))]

/-- Nor does the primary-key check. -/
theorem checkPk_append_single {t : Table} {k : String} (hk : k ∉ t.column_names)
    (row : Row) (v : Value) :
    checkPk t (row ++ [(k, v)]) = checkPk t row := by
  rcases hpko : t.primary_key with _ | pk
  · simp only [checkPk, hpko]
  · have hne : k ≠ pk := fun he => hk (he ▸ primary_key_mem hpko)
    simp only [checkPk, hpko, Row.getD_append_single hne row v]

/-- Nor does the uniqueness check. -/
theorem checkUnique_append_single {t : Table} {k : String} (hk : k ∉ t.column_names)
    (row : Row) (v : Value) :
    ∀ (cs : List String), (∀ c ∈ cs, c ∈ t.column_names) →
      checkUnique t cs (row ++ [(k, v)]) = checkUnique t cs row
  | [], _ => rfl
  | c :: rest, h => by
    unfold checkUnique
    rw [Row.getD_append_single
        (fun he : k = c => hk (he ▸ h c (List.mem_cons_self _ _))) row v,
      checkUnique_append_single hk row v rest
        (fun c2 hc2 => h c2 (List.mem_cons_of_mem _ hc2))]

/-- `validate_row` is insensitive to an entry under an undeclared key:
the verdict is unchanged and the extra entry survives materialization. -/
theorem validate_row_append_single {t : Table} {k : String} (hk : k ∉ t.column_names)
    {row : Row} (hpresent : ∀ c ∈ t.column_names, Row.hasKey row c = true) (v : Value) :
    (∀ e, t.validate_row row = .error e → t.validate_row (row ++ [(k, v)]) = .error e) ∧
    (t.validate_row row = .ok row ∧
      (∀ e, t.validate_row (row ++ [(k, v)]) = .error e → t.validate_row row = .error e) ∨
      ∃ e, t.validate_row row = .error e) ∧
    (∀ r, t.validate_row row = .ok r →
      t.validate_row (row ++ [(k, v)]) = .ok (r ++ [(k, v)])) := by
  have hp1 : ∀ col ∈ t.columns, Row.hasKey row col.name = true :=
    fun col hc => hpresent col.name (List.mem_map_of_mem Column.name hc)
  have hp2 : ∀ col ∈ t.columns, Row.hasKey (row ++ [(k, v)]) col.name = true := by
    intro col hc
    rw [Row.hasKey_append_single
      (fun he : k = col.name => hk (he ▸ List.mem_map_of_mem Column.name hc))]
    exact hp1 col hc
  have hct := @checkTypes_append_single k v t.columns row
    (fun col hc he => hk (he ▸ List.mem_map_of_mem Column.name hc))
  have hcpk := checkPk_append_single hk row v
  have hcu := checkUnique_append_single hk row v t.unique_columns
    (fun c hc => unique_columns_subset hc)
  simp only [Table.validate_row, Bind.bind, Except.bind,
    materialize_of_present t.columns row hp1,
    materialize_of_present t.columns (row ++ [(k, v)]) hp2, hct, hcpk, hcu]
  rcases hc1 : checkTypes t.columns row with e1 | u1 <;> simp only [hc1]
  · exact ⟨fun e he => he, Or.inr ⟨e1, rfl⟩, fun r hr => by cases hr⟩
  rcases hc2 : checkPk t row with e2 | u2 <;> simp only [hc2]
  · exact ⟨fun e he => he, Or.inr ⟨e2, rfl⟩, fun r hr => by cases hr⟩
  rcases hc3 : checkUnique t t.unique_columns row with e3 | u3 <;> simp only [hc3]
  · exact ⟨fun e he => he, Or.inr ⟨e3, rfl⟩, fun r hr => by cases hr⟩
  refine ⟨fun e he => ?_, Or.inl ⟨?_, fun e he => ?_⟩, fun r hr => ?_⟩
  · cases he
  · rfl
  · cases he
  · injection hr with hr2
    rw [← hr2]
    rfl

/-- **C10**: neither `insert` nor `update` checks that supplied keys are
declared columns.  Appending an entry under an undeclared key never
changes `insert`'s verdict, on success the stored row carries the extra
entry, and an `update` assignment under an undeclared key enters the
merged candidate row that replaces the stored row. -/
theorem c10_extra_keys (t : Table) (row : Row) (k : String) (v : Value)
    (hk : k ∉ t.column_names)
    (hpresent : ∀ c ∈ t.column_names, Row.hasKey row c = true) :
    (t.insert (row ++ [(k, v)])).2 = (t.insert row).2 ∧
    ((t.insert row).2 = .ok () →
      (t.insert (row ++ [(k, v)])).1.rows = t.rows ++ [row ++ [(k, v)]]) ∧
    (∀ old_row : Row, Row.hasKey (Row.update old_row [(k, v)]) k = true) := by
  obtain ⟨hva, hvb, hvc⟩ := validate_row_append_single hk hpresent v
  refine ⟨?_, ?_, fun old_row => ?_⟩
  · unfold Table.insert
    rcases hval : t.validate_row row with e | r
    · rw [hva e hval]
    · rw [hvc r hval]
  · intro hok
    unfold Table.insert at hok ⊢
    rcases hval : t.validate_row row with e | r
    · rw [hval] at hok
      cases hok
    · rw [hvc r hval]
      rcases hvb with ⟨hvb1, _⟩ | ⟨e, hvb2⟩
      · rw [hval] at hvb1
        injection hvb1 with hvb1
        rw [hvb1]
      · rw [hvb2] at hval
        cases hval
  · rw [Row.hasKey_update]
    simp

/-- **C10** witness: the undeclared key `x` neither changes the verdict
nor is dropped from the stored row. -/
theorem c10_extra_keys_witness :
    (intT.insert ([("n", .vInt 1)] ++ [("x", .vInt 2)])).2 =
      (intT.insert [("n", .vInt 1)]).2 ∧
    ((intT.insert [("n", .vInt 1)]).2 = .ok () →
      (intT.insert ([("n", .vInt 1)] ++ [("x", .vInt 2)])).1.rows =
        intT.rows ++ [[("n", .vInt 1)] ++ [("x", .vInt 2)]]) ∧
    (∀ old_row : Row, Row.hasKey (Row.update old_row [("x", .vInt 2)]) "x" = true) :=
  c10_extra_keys intT [("n", .vInt 1)] "x" (.vInt 2) (by decide) (by decide)

/-- **C1** witness: on a concrete two-table database the optimized join —
whose right column is the right table's primary key — agrees with the
nested-loop join. -/
theorem c1_join_equivalence_witness :
    dbW.inner_join_optimized "members" "departments" "did" "did" [] =
      dbW.inner_join "members" "departments" "did" "did" [] := by
  refine c1_join_equivalence dbW "members" "departments" "did" "did" [] ?_
  intro p hp
  have htab : dbW.tables = [("members", membersT), ("departments", deptT)] := by rfl
  rw [htab] at hp
  simp only [List.mem_cons, List.not_mem_nil, or_false] at hp
  rcases hp with rfl | rfl
  · exact checkInv_sound (by decide)
  · exact checkInv_sound (by decide)

/-- **C1** counterexample (refuting the unconditional claim): on the
reachable state left by the failing update — two inserts then the raising
update, which moves the primary-key index entry of row 0 to the key `3` —
the nested-loop self-join on `id` finds both rows, while the optimized
join, looking the keys up in the broken index, misses the `id = 1` row.
So over *every* database the two joins are not identical. -/
theorem c1_counterexample :
    usersT3 = applyOps usersT [.ins rowU1, .ins rowU2, .upd updBad condId1] ∧
    dbBad.inner_join "users" "users" "id" "id" [] =
      .ok [[("users.id", .vInt 1), ("users.email", .vStr "a")],
           [("users.id", .vInt 2), ("users.email", .vStr "b")]] ∧
    dbBad.inner_join_optimized "users" "users" "id" "id" [] =
      .ok [[("users.id", .vInt 2), ("users.email", .vStr "b")]] ∧
    ([[("users.id", .vInt 1), ("users.email", .vStr "a")],
      [("users.id", .vInt 2), ("users.email", .vStr "b")]] : List Row) ≠
      [[("users.id", .vInt 2), ("users.email", .vStr "b")]] := by
  refine ⟨by decide, by rfl, by rfl, by decide⟩

end RelDB

